import Mathlib

set_option linter.unusedSectionVars false

/-!
Shallow embedding of the Robin Hood open-addressing hashmap from
`src/hashmap.h` (the `DEFINE_HASHMAP(K, V, NAME)` macro, which is the core
engine) together with the points where the untyped variant in `src/library.h`
differs (its insert resizes to `capacity * 2` instead of
`capacity * grow_factor`).

Modelling conventions:
* machine integers become `Nat`; the `uint32_t` truncation of the hash is an
  explicit `% 2 ^ 32`; `size_t` index arithmetic is exact in the reachable
  range, so it is plain `Nat` arithmetic;
* the entries array becomes a `List` whose length equals the `capacity`
  field (stated as a hypothesis where needed, exactly as C indexing assumes);
* the load check `count + 1 > capacity * 0.9` (a double comparison against
  the integers `count + 1` and `capacity`) becomes the exact rational
  comparison `10 * (count + 1) > 9 * capacity`;
* `capacity * grow_factor` (double multiplication truncated to `size_t`)
  becomes `⌊capacity * grow_factor⌋` over `ℚ`;
* the unbounded C loops (`while (1)` in insert, `while (status != EMPTY)` in
  get/remove) take an explicit fuel; running out of fuel returns `none`,
  which models divergence of the C loop, and is distinct from a returned
  failure;
* `malloc`/`calloc` results are modelled by an allocation oracle
  `alloc : Nat → Bool` consulted with a running counter: `false` means that
  allocation returns `NULL`;
* destructors and `free` have no observable effect in a value-level model
  and are dropped.
-/

namespace RobinHood

/-- Entry states, from `hash_entry_status_t`: EMPTY = 0, OCCUPIED, TOMBSTONE. -/
inductive Status where
  | empty
  | occupied
  | tombstone
deriving DecidableEq, Repr

/-- One slot of the table, from `hash_NAME_entry_t`: key, value, status and the
cached 32-bit hash of the key. -/
structure Entry (K V : Type) where
  key : K
  value : V
  status : Status
  hash : Nat
deriving Repr

/-- The table, from `hashmap_NAME_t`: entries array, capacity, live count,
growth factor and the plugged-in hash/comparison functions.  The C `destructor`
field is only invoked on teardown and has no value-level effect, so it is not
modelled. -/
structure Table (K V : Type) where
  entries : List (Entry K V)
  capacity : Nat
  count : Nat
  grow_factor : ℚ
  hash_fn : K → Nat
  cmp_fn : K → K → Bool

variable {K V : Type} [Inhabited K] [Inhabited V]

/-- The all-zero slot produced by `calloc`: status 0 = EMPTY, zeroed payload. -/
def emptyEntry : Entry K V := ⟨default, default, Status.empty, 0⟩

/-- Array read `map->entries[i]`.  In reachable code `i` is always in bounds;
the default only pads the model. -/
def getEntry (t : Table K V) (i : Nat) : Entry K V :=
  t.entries.getD i emptyEntry

/-- Array write `map->entries[i] = e`. -/
def setEntry (t : Table K V) (i : Nat) (e : Entry K V) : Table K V :=
  { t with entries := t.entries.set i e }

/-- Status of slot `i`. -/
def slotStatus (t : Table K V) (i : Nat) : Status :=
  (getEntry t i).status

/-- FNV-1a over the bytes of the key, from `hash_str_key` in `src/hashmap.h`
lines 944-953 (the string is the byte list before the NUL terminator; each
step XORs the byte cast to `uint8_t` and multiplies by the FNV prime in
`uint32_t` arithmetic). -/
def hash_str_key (key : List Nat) : Nat :=
  key.foldl (fun h b => ((h ^^^ b % 256) * 16777619) % 2 ^ 32) 2166136261

/-- Probe distance, from `hash_probe_distance` in `src/hashmap.h` line 1005:
`(index + capacity - hash % capacity) % capacity`. -/
def hash_probe_distance (hash index capacity : Nat) : Nat :=
  (index + capacity - hash % capacity) % capacity

/-- The truncation `const uint32_t hash = map->hash_fn(key)`: the user hash
function returns `unsigned long` and is truncated to 32 bits. -/
def hashKey (t : Table K V) (k : K) : Nat :=
  t.hash_fn k % 2 ^ 32

/-- The pre-insert load check `map->count + 1 > map->capacity * 0.9` as an
exact rational comparison. -/
def needsResize (t : Table K V) : Bool :=
  decide (10 * (t.count + 1) > 9 * t.capacity)

/-- Resize target of the typed insert (`src/hashmap.h` line 1143):
`map->capacity * map->grow_factor`, a double product truncated to `size_t`,
that is `⌊capacity * grow_factor⌋`.  It is computed here on the numerator and
denominator of the stored rational so that concrete runs reduce inside the
kernel; `growCap_eq_floor` below proves it equal to the floor of the
product. -/
def growCap (t : Table K V) : Nat :=
  t.capacity * t.grow_factor.num.toNat / t.grow_factor.den

/-- Resize target of the untyped insert (`src/library.h` line 310):
`map->capacity * 2`, ignoring the stored `grow_factor`. -/
def growCapDouble (t : Table K V) : Nat :=
  t.capacity * 2

/-- A table as produced by `hashmap_NAME_init`: `calloc`ed (all-EMPTY) entries
array of length `capacity`, count 0, and the supplied parameters. -/
def hashmap_init (capacity : Nat) (grow_factor : ℚ)
    (hash_fn : K → Nat) (cmp_fn : K → K → Bool) : Table K V :=
  { entries := List.replicate capacity emptyEntry
    capacity := capacity
    count := 0
    grow_factor := grow_factor
    hash_fn := hash_fn
    cmp_fn := cmp_fn }

/-- The fresh map `hashmap_NAME_new(new_capacity, map->grow_factor,
map->destructor, map->hash_fn, map->cmp_fn)` built at the start of resize. -/
def freshLike (t : Table K V) (new_capacity : Nat) : Table K V :=
  hashmap_init new_capacity t.grow_factor t.hash_fn t.cmp_fn

/-- End of a successful resize: the original map adopts the new map's entries,
capacity and count (`src/hashmap.h` lines 1195-1198); its own function fields
stay in place. -/
def adopt (t nm : Table K V) : Table K V :=
  { t with entries := nm.entries, capacity := nm.capacity, count := nm.count }

/-- The final placement step of insert: `map->entries[index] = new_entry;
map->count++`. -/
def placed (t : Table K V) (index : Nat) (e : Entry K V) : Table K V :=
  { t with entries := t.entries.set index e, count := t.count + 1 }

/-- The Robin Hood placement loop of insert (`src/hashmap.h` lines 1154-1172):
place the carried entry at the first EMPTY/TOMBSTONE slot; at an OCCUPIED slot
swap with the resident when the carried displacement exceeds the resident's
probe distance, resetting the carried distance to the resident's.  `fuel`
bounds the iterations of the unbounded `while (1)`. -/
def placeLoop (t : Table K V) (e : Entry K V) (index dist fuel : Nat) :
    Option (Table K V) :=
  match fuel with
  | 0 => none
  | fuel + 1 =>
    let cur := getEntry t index
    if cur.status = Status.empty ∨ cur.status = Status.tombstone then
      some (placed t index e)
    else
      let existing_dist := hash_probe_distance cur.hash index t.capacity
      if existing_dist < dist then
        placeLoop (setEntry t index e) cur ((index + 1) % t.capacity)
          (existing_dist + 1) fuel
      else
        placeLoop t e ((index + 1) % t.capacity) (dist + 1) fuel

/-- One step result of an insert: `none` is divergence of a C loop;
`some ((ok, t), ctr)` is a returned `int` (1 = success, 0 = failure), the
table state on return, and the advanced allocation counter. -/
abbrev InsRes (K V : Type) := Option ((Bool × Table K V) × Nat)

/-- The reinsertion loop of resize (`src/hashmap.h` lines 1178-1194): walk the
old entries in ascending slot order and insert every OCCUPIED one into the new
map using the given insert function; any failed insertion aborts the whole
resize. -/
def reinsertList (ins : Table K V → K → V → Nat → InsRes K V) :
    List (Entry K V) → Table K V → Nat → Option (Option (Table K V) × Nat)
  | [], acc, ctr => some (some acc, ctr)
  | e :: rest, acc, ctr =>
    if e.status = Status.occupied then
      match ins acc e.key e.value ctr with
      | none => none
      | some ((false, _), ctr2) => some (none, ctr2)
      | some ((true, acc2), ctr2) => reinsertList ins rest acc2 ctr2
    else
      reinsertList ins rest acc ctr

/-- Body of `hashmap_NAME_resize` (`src/hashmap.h` lines 1174-1201),
parameterised by the insert used for reinsertion: allocate a fresh all-EMPTY
map of the requested capacity (the oracle decides whether the allocation
succeeds), reinsert every occupied entry, and only on full success adopt the
new array; every failure path returns 0 with the original table untouched. -/
def resizeAux (alloc : Nat → Bool) (ins : Table K V → K → V → Nat → InsRes K V)
    (t : Table K V) (new_capacity : Nat) (ctr : Nat) : InsRes K V :=
  if alloc ctr then
    match reinsertList ins t.entries (freshLike t new_capacity) (ctr + 1) with
    | none => none
    | some (none, ctr2) => some ((false, t), ctr2)
    | some (some nm, ctr2) => some ((true, adopt t nm), ctr2)
  else
    some ((false, t), ctr + 1)

/-- Insert (`src/hashmap.h` lines 1138-1173), parameterised by the resize
target `grow` so that the typed variant (`capacity * grow_factor`) and the
untyped `src/library.h` variant (`capacity * 2`) share one definition: check
the load factor, resize if needed (aborting on resize failure with the table
unchanged), then run the Robin Hood placement loop. -/
def insertG (grow : Table K V → Nat) (alloc : Nat → Bool) :
    Nat → Table K V → K → V → Nat → InsRes K V
  | 0, _, _, _, _ => none
  | fuel + 1, t, k, v, ctr =>
    let afterResize : InsRes K V :=
      if needsResize t then
        resizeAux alloc (insertG grow alloc fuel) t (grow t) ctr
      else
        some ((true, t), ctr)
    match afterResize with
    | none => none
    | some ((false, t2), ctr2) => some ((false, t2), ctr2)
    | some ((true, t1), ctr2) =>
      let hash := hashKey t1 k
      let e : Entry K V := ⟨k, v, Status.occupied, hash⟩
      match placeLoop t1 e (hash % t1.capacity) 0 (fuel + 1) with
      | none => none
      | some t3 => some ((true, t3), ctr2)

/-- The typed insert `hashmap_NAME_insert`: resize target
`capacity * grow_factor`. -/
def hashmap_insert (alloc : Nat → Bool) (fuel : Nat) (t : Table K V)
    (k : K) (v : V) (ctr : Nat) : InsRes K V :=
  insertG growCap alloc fuel t k v ctr

/-- The untyped insert `hashmap_insert` of `src/library.h`: identical
algorithm but resize target `capacity * 2`. -/
def hashmap_insert_untyped (alloc : Nat → Bool) (fuel : Nat) (t : Table K V)
    (k : K) (v : V) (ctr : Nat) : InsRes K V :=
  insertG growCapDouble alloc fuel t k v ctr

/-- The resize `hashmap_NAME_resize`, reinserting via the typed insert. -/
def hashmap_resize (alloc : Nat → Bool) (fuel : Nat) (t : Table K V)
    (new_capacity : Nat) (ctr : Nat) : InsRes K V :=
  resizeAux alloc (insertG growCap alloc fuel) t new_capacity ctr

/-- Lookup scan of `hashmap_NAME_get` (`src/hashmap.h` lines 1119-1137): walk
from the home slot, stop with NotFound (`some none`) at an EMPTY slot, return
the value (`some (some v)`) at an OCCUPIED slot with matching cached hash and
`cmp_fn`; a TOMBSTONE never stops the scan.  Out of fuel (`none`) models the
C loop running forever. -/
def getLoop (t : Table K V) (k : K) (h : Nat) : Nat → Nat → Option (Option V)
  | _, 0 => none
  | index, fuel + 1 =>
    let cur := getEntry t index
    if cur.status = Status.empty then some none
    else if cur.status = Status.occupied ∧ cur.hash = h ∧
        t.cmp_fn cur.key k = true then
      some (some cur.value)
    else
      getLoop t k h ((index + 1) % t.capacity) fuel

/-- Lookup `hashmap_NAME_get` with the canonical fuel `capacity`: the scan
state is just the index, so after `capacity` steps it has visited every slot
and the C loop can only repeat itself. -/
def hashmap_get (t : Table K V) (k : K) : Option (Option V) :=
  getLoop t k (hashKey t k) (hashKey t k % t.capacity) t.capacity

/-- The mutation of a successful remove: `map->entries[index].key = (K){0};
map->entries[index].status = TOMBSTONE; map->count--` (value and cached hash
stay behind). -/
def tombstoned (t : Table K V) (index : Nat) : Table K V :=
  { t with
    entries := t.entries.set index
      { getEntry t index with key := default, status := Status.tombstone }
    count := t.count - 1 }

/-- Removal scan of `hashmap_NAME_remove` (`src/hashmap.h` lines 1202-1223):
walk like get; on a match zero the key, set the status to TOMBSTONE and
decrement the count. -/
def removeLoop (t : Table K V) (k : K) (h : Nat) :
    Nat → Nat → Option (Bool × Table K V)
  | _, 0 => none
  | index, fuel + 1 =>
    let cur := getEntry t index
    if cur.status = Status.empty then some (false, t)
    else if cur.status = Status.occupied ∧ cur.hash = h ∧
        t.cmp_fn cur.key k = true then
      some (true, tombstoned t index)
    else
      removeLoop t k h ((index + 1) % t.capacity) fuel

/-- Remove with the canonical fuel `capacity` (same cycle argument as get). -/
def hashmap_remove (t : Table K V) (k : K) : Option (Bool × Table K V) :=
  removeLoop t k (hashKey t k) (hashKey t k % t.capacity) t.capacity

/-- Iterator, from `hashmap_NAME_iter_t`: the borrowed table and a cursor. -/
structure Iter (K V : Type) where
  map : Table K V
  index : Nat

/-- Iterator creation `hashmap_NAME_iter_begin`: cursor at 0. -/
def hashmap_iter_begin (t : Table K V) : Iter K V :=
  ⟨t, 0⟩

/-- The scan inside `hashmap_NAME_iter_next` (`src/hashmap.h` lines
1229-1241): advance the cursor past EMPTY and TOMBSTONE slots; yield the next
OCCUPIED entry together with the advanced cursor, or exhaustion at capacity.
The loop is bounded by `capacity - index`, so it needs no fuel. -/
def iterNextLoop (t : Table K V) (i : Nat) : Option (Entry K V) × Nat :=
  if h : i < t.capacity then
    let e := getEntry t i
    if e.status = Status.occupied then (some e, i + 1)
    else iterNextLoop t (i + 1)
  else
    (none, i)
termination_by t.capacity - i

/-- Iterator step `hashmap_NAME_iter_next`. -/
def hashmap_iter_next (it : Iter K V) : Option (Entry K V) × Iter K V :=
  let r := iterNextLoop it.map it.index
  (r.1, ⟨it.map, r.2⟩)

/-- Drive a fresh iterator with `hashmap_iter_next` until it yields `none`,
collecting the returned entries (at most `fuel` of them). -/
def iterDrain (it : Iter K V) (fuel : Nat) : List (Entry K V) :=
  match fuel with
  | 0 => []
  | fuel + 1 =>
    match hashmap_iter_next it with
    | (none, _) => []
    | (some e, it2) => e :: iterDrain it2 fuel

/-- Run a whole sequence of typed inserts (all allocations succeeding),
stopping with `none` if any insert fails or diverges. -/
def insertSeq (fuel : Nat) : Table K V → List (K × V) → Option (Table K V)
  | t, [] => some t
  | t, (k, v) :: rest =>
    match hashmap_insert (fun _ => true) fuel t k v 0 with
    | some ((true, t2), _) => insertSeq fuel t2 rest
    | _ => none

/-! Specification-side views of a table, used to state the claims. -/

/-- The (key, value) pair carried by one slot, when it is occupied. -/
def entryPair (e : Entry K V) : Option (K × V) :=
  if e.status = Status.occupied then some (e.key, e.value) else none

/-- The occupied (key, value) pairs of a slot list, in slot order. -/
def pairsList (l : List (Entry K V)) : List (K × V) :=
  l.filterMap entryPair

/-- Length bookkeeping: `count` is the number of occupied slots. -/
abbrev countInv (t : Table K V) : Prop :=
  t.count = (pairsList t.entries).length

/-- The entries list really has `capacity` slots. -/
abbrev lenInv (t : Table K V) : Prop :=
  t.entries.length = t.capacity

/-- Cached hashes of occupied slots reproduce `hash_fn` on the stored key. -/
abbrev hashInv (t : Table K V) : Prop :=
  ∀ i < t.capacity, slotStatus t i = Status.occupied →
    (getEntry t i).hash = hashKey t (getEntry t i).key

/-- Slots `start, start+1, …, start+n-1` (cyclically) are all non-EMPTY. -/
abbrev walkInv (t : Table K V) (start n : Nat) : Prop :=
  ∀ j < n, slotStatus t ((start + j) % t.capacity) ≠ Status.empty

/-- Robin Hood reachability: every occupied slot is connected to its home slot
by a run of non-EMPTY slots, so the lookup scan cannot stop short of it. -/
abbrev reachInv (t : Table K V) : Prop :=
  ∀ i < t.capacity, slotStatus t i = Status.occupied →
    walkInv t ((getEntry t i).hash % t.capacity)
      (hash_probe_distance (getEntry t i).hash i t.capacity + 1)

/-- No slot is a tombstone. -/
abbrev noTomb (t : Table K V) : Prop :=
  ∀ i < t.capacity, slotStatus t i ≠ Status.tombstone

/-- The well-formedness bundle maintained by every operation. -/
abbrev WF (t : Table K V) : Prop :=
  lenInv t ∧ 0 < t.capacity ∧ 1 ≤ t.grow_factor ∧ countInv t ∧ hashInv t ∧
    reachInv t

end RobinHood

namespace RobinHood

variable {K V : Type} [Inhabited K] [Inhabited V]

/-- What one successful insert guarantees on a well-formed table. -/
def InsertSpec (grow : Table K V → Nat) (alloc : Nat → Bool) (fuel : Nat) : Prop :=
  ∀ (t : Table K V) (k : K) (v : V) (ctr : Nat) (t2 : Table K V) (ctr2 : Nat),
    WF t →
    insertG grow alloc fuel t k v ctr = some ((true, t2), ctr2) →
    WF t2 ∧
    (↑(pairsList t2.entries) : Multiset (K × V))
      = ↑(pairsList t.entries) + {(k, v)} ∧
    t2.count = t.count + 1 ∧
    t2.hash_fn = t.hash_fn ∧ t2.cmp_fn = t.cmp_fn ∧
    t2.grow_factor = t.grow_factor ∧
    (noTomb t → noTomb t2)

/-- The resize target is positive on any table the code can reach (used with
`growCap`, where it needs `grow_factor ≥ 1`, and with `growCapDouble`). -/
def GrowOK (grow : Table K V → Nat) : Prop :=
  ∀ s : Table K V, 0 < s.capacity → 1 ≤ s.grow_factor → 0 < grow s

/-- Oracle under which every allocation succeeds. -/
def allocAll : Nat → Bool := fun _ => true

/-- Oracle under which every allocation fails (calloc returns NULL). -/
def allocNone : Nat → Bool := fun _ => false

/-- Extract the table of an insert / resize result (used by concrete runs). -/
def resTable (d : Table Nat Nat) (r : InsRes Nat Nat) : Table Nat Nat :=
  match r with
  | some ((_, t), _) => t
  | none => d

/-- Extract the allocation counter of an insert / resize result. -/
def resCtr (r : InsRes Nat Nat) : Nat :=
  match r with
  | some (_, c) => c
  | none => 0

/-- Extract the success flag of an insert / resize result. -/
def resFlag (r : InsRes Nat Nat) : Bool :=
  match r with
  | some ((b, _), _) => b
  | none => false

/-- Extract the table of a remove result. -/
def remTable (d : Table Nat Nat) (r : Option (Bool × Table Nat Nat)) : Table Nat Nat :=
  match r with
  | some (_, t) => t
  | none => d

end RobinHood

namespace RobinHood

/-! Concrete tables used by witnesses and counterexamples. -/

/-- Fresh table, capacity 1, grow factor 3/2: the first insert triggers a
resize whose target `⌊1 * 3/2⌋ = 1` does not actually grow the table. -/
def c2tab : Table Nat Nat :=
  hashmap_init 1 (⟨3, 2, by decide, by decide⟩ : ℚ) (fun n => n) (fun a b => a == b)

/-- Fresh table for the no-resize witness of the amended load-factor claim. -/
def c2wtab : Table Nat Nat := hashmap_init 4 2 (fun n => n) (fun a b => a == b)

/-- Result of the witness insert into `c2wtab`. -/
def c2wres : Table Nat Nat := resTable c2wtab (hashmap_insert allocAll 5 c2wtab 1 1 0)

/-- Full table (capacity 2, both occupied at their home slots) with
grow factor 3: inserting a third key triggers the resize. -/
def c3tab : Table Nat Nat :=
  { entries := [⟨0, 100, Status.occupied, 0⟩, ⟨1, 101, Status.occupied, 1⟩]
    capacity := 2, count := 2, grow_factor := 3
    hash_fn := fun n => n, cmp_fn := fun a b => a == b }

/-- Result of the triggered typed insert into `c3tab`. -/
def c3resTyped : Table Nat Nat := resTable c3tab (hashmap_insert allocAll 5 c3tab 2 9 0)

/-- Result of the triggered untyped insert into `c3tab`. -/
def c3resUntyped : Table Nat Nat :=
  resTable c3tab (hashmap_insert_untyped allocAll 5 c3tab 2 9 0)

/-- A table whose load check fires (capacity 1, one occupied slot). -/
def c3full : Table Nat Nat :=
  { entries := [⟨0, 100, Status.occupied, 0⟩]
    capacity := 1, count := 1, grow_factor := 2
    hash_fn := fun n => n, cmp_fn := fun a b => a == b }

/-- Fresh no-trigger table for the last conjunct of the C3 theorem. -/
def c3wtab : Table Nat Nat := hashmap_init 4 2 (fun n => n) (fun a b => a == b)

/-- Result of the witness insert into `c3wtab`. -/
def c3wres : Table Nat Nat := resTable c3wtab (hashmap_insert allocAll 5 c3wtab 1 1 0)

/-- Table used to exercise the resize failure path. -/
def c4tab : Table Nat Nat :=
  { entries := [⟨0, 100, Status.occupied, 0⟩, (emptyEntry : Entry Nat Nat)]
    capacity := 2, count := 1, grow_factor := 2
    hash_fn := fun n => n, cmp_fn := fun a b => a == b }

/-- Well-formed 3-slot table with two occupied slots used for the C5
counterexample (resize it to capacity 1) and witness (resize it to 7). -/
def c5tab : Table Nat Nat :=
  { entries := [⟨0, 100, Status.occupied, 0⟩, ⟨1, 101, Status.occupied, 1⟩,
                (emptyEntry : Entry Nat Nat)]
    capacity := 3, count := 2, grow_factor := 2
    hash_fn := fun n => n, cmp_fn := fun a b => a == b }

/-- Witness table for the amended C5 claims. -/
def c5wtab : Table Nat Nat :=
  { entries := [⟨0, 100, Status.occupied, 0⟩, ⟨1, 101, Status.occupied, 1⟩,
                (emptyEntry : Entry Nat Nat)]
    capacity := 3, count := 2, grow_factor := 2
    hash_fn := fun n => n, cmp_fn := fun a b => a == b }

/-- Result of the witness resize of `c5wtab` to capacity 7. -/
def c5wres : Table Nat Nat := resTable c5wtab (hashmap_resize allocAll 10 c5wtab 7 0)

/-- Reachable table with one occupied slot and no EMPTY slot (slots 0 and 2
are tombstones): after removing the key, the C lookup loop never reaches an
EMPTY slot and spins forever. -/
def c6tab : Table Nat Nat :=
  { entries := [⟨0, 0, Status.tombstone, 0⟩, ⟨1, 5, Status.occupied, 1⟩,
                ⟨0, 0, Status.tombstone, 0⟩]
    capacity := 3, count := 1, grow_factor := 2
    hash_fn := fun n => n, cmp_fn := fun a b => a == b }

/-- Witness table for the amended C6 claim: one occupied slot, empties left. -/
def c6wtab : Table Nat Nat :=
  { entries := [(emptyEntry : Entry Nat Nat), ⟨1, 5, Status.occupied, 1⟩,
                (emptyEntry : Entry Nat Nat)]
    capacity := 3, count := 1, grow_factor := 2
    hash_fn := fun n => n, cmp_fn := fun a b => a == b }

/-- Result of removing key 1 from `c6wtab`. -/
def c6wres : Table Nat Nat := remTable c6wtab (hashmap_remove c6wtab 1)

/-- Fresh table in which every key hashes to slot 0, for the tombstone
probe-chain scenario of C7. -/
def c7tab : Table Nat Nat := hashmap_init 4 2 (fun _ => 0) (fun a b => a == b)

/-- C7 scenario state after inserting key 10 with value 1. -/
def c7afterInsertX : Table Nat Nat := resTable c7tab (hashmap_insert allocAll 10 c7tab 10 1 0)

/-- C7 scenario state after removing key 10. -/
def c7afterRemoveX : Table Nat Nat := remTable c7tab (hashmap_remove c7afterInsertX 10)

/-- C7 scenario state after inserting key 20 with value 2 into the tombstone
probe chain. -/
def c7afterInsertY : Table Nat Nat :=
  resTable c7tab (hashmap_insert allocAll 10 c7afterRemoveX 20 2 0)

/-- Table with occupied, empty and tombstone slots interleaved, for the
iterator witness. -/
def c8wtab : Table Nat Nat :=
  { entries := [⟨1, 11, Status.occupied, 1⟩, (emptyEntry : Entry Nat Nat),
                ⟨0, 0, Status.tombstone, 0⟩, ⟨3, 33, Status.occupied, 3⟩,
                (emptyEntry : Entry Nat Nat)]
    capacity := 5, count := 2, grow_factor := 2
    hash_fn := fun n => n, cmp_fn := fun a b => a == b }

/-- Fresh table for the C1 witness. -/
def c1tab : Table Nat Nat := hashmap_init 4 2 (fun n => n) (fun a b => a == b)

/-- Key-value pairs for the C1 witness. -/
def c1kvs : List (Nat × Nat) := [(1, 10), (2, 20), (3, 30)]

/-- Result of inserting `c1kvs` into `c1tab`. -/
def c1res : Table Nat Nat :=
  match insertSeq 10 c1tab c1kvs with
  | some tt => tt
  | none => c1tab

/-- Table with two occupied slots and an empty one, for the C10 witness. -/
def c10wtab : Table Nat Nat :=
  { entries := [⟨0, 100, Status.occupied, 0⟩, ⟨1, 101, Status.occupied, 1⟩,
                (emptyEntry : Entry Nat Nat)]
    capacity := 3, count := 2, grow_factor := 2
    hash_fn := fun n => n, cmp_fn := fun a b => a == b }

end RobinHood

/-! Basic facts about the embedding: array reads/writes, the fresh table, and
the cyclic index arithmetic of the probe walk. -/

namespace RobinHood

variable {K V : Type} [Inhabited K] [Inhabited V]

theorem getEntry_set_self {t : Table K V} {i : Nat} (e : Entry K V)
    (h : i < t.entries.length) : getEntry (setEntry t i e) i = e := by
  simp [getEntry, setEntry, List.getD_eq_getElem?_getD, List.getElem?_set_self h]

theorem getEntry_set_ne {t : Table K V} {i j : Nat} (e : Entry K V)
    (h : i ≠ j) : getEntry (setEntry t i e) j = getEntry t j := by
  simp [getEntry, setEntry, List.getD_eq_getElem?_getD, List.getElem?_set_ne h]

theorem getEntry_eq_getElem {t : Table K V} {i : Nat} (h : i < t.entries.length) :
    getEntry t i = t.entries[i] := by
  simp [getEntry, List.getD_eq_getElem?_getD, List.getElem?_eq_getElem h]

theorem getEntry_init (cap : Nat) (gf : ℚ) (hf : K → Nat) (cf : K → K → Bool)
    (i : Nat) : getEntry (hashmap_init cap gf hf cf : Table K V) i = emptyEntry := by
  simp only [getEntry, hashmap_init, List.getD_eq_getElem?_getD,
    List.getElem?_replicate]
  split <;> rfl

theorem mod_cycle {cap a b : Nat} (ha : a < cap) (hb : b < cap) :
    (a + (b + cap - a) % cap) % cap = b := by
  rw [Nat.add_mod_mod]
  have h1 : a + (b + cap - a) = b + cap := by omega
  rw [h1, Nat.add_mod_right, Nat.mod_eq_of_lt hb]

theorem probe_dist_walk {cap h dist : Nat} (hcap : 0 < cap) :
    hash_probe_distance h ((h % cap + dist) % cap) cap = dist % cap := by
  unfold hash_probe_distance
  set home := h % cap with hh
  set q := (home + dist) / cap with hq
  have hhome : home < cap := Nat.mod_lt _ hcap
  have h1 : cap * q + (home + dist) % cap = home + dist := Nat.div_add_mod _ _
  have h1b : q * cap = cap * q := Nat.mul_comm _ _
  have hmlt : (home + dist) % cap < cap := Nat.mod_lt _ hcap
  have h3 : (home + dist) % cap + cap - home + q * cap = dist + cap := by omega
  calc ((home + dist) % cap + cap - home) % cap
      = ((home + dist) % cap + cap - home + q * cap) % cap := by
        rw [Nat.add_mul_mod_self_right]
    _ = (dist + cap) % cap := by rw [h3]
    _ = dist % cap := Nat.add_mod_right _ _

theorem walk_step {cap a d : Nat} :
    ((a + d) % cap + 1) % cap = (a + (d + 1)) % cap := by
  rw [Nat.mod_add_mod, Nat.add_assoc]

theorem walk_inj {cap a j j2 : Nat} (hj : j < cap) (hj2 : j2 < cap)
    (h : (a + j) % cap = (a + j2) % cap) : j = j2 := by
  have h1 : j % cap = j2 % cap := by
    have := Nat.ModEq.add_left_cancel (Nat.ModEq.refl a) h
    exact this
  rwa [Nat.mod_eq_of_lt hj, Nat.mod_eq_of_lt hj2] at h1

theorem status_not_free {s : Status} (h : ¬(s = Status.empty ∨ s = Status.tombstone)) :
    s = Status.occupied := by
  cases s <;> simp_all

end RobinHood

/-! The pairs view of a slot array and how a single array write changes it. -/

namespace RobinHood

variable {K V : Type} [Inhabited K] [Inhabited V]

theorem entryPair_occupied {e : Entry K V} (h : e.status = Status.occupied) :
    entryPair e = some (e.key, e.value) := by
  simp [entryPair, h]

theorem entryPair_not_occupied {e : Entry K V} (h : e.status ≠ Status.occupied) :
    entryPair e = none := by
  simp [entryPair, h]

theorem pairsList_cons (e : Entry K V) (l : List (Entry K V)) :
    pairsList (e :: l) = (entryPair e).toList ++ pairsList l := by
  cases h : entryPair e <;> simp [pairsList, List.filterMap_cons, h]

theorem pairsList_append (l1 l2 : List (Entry K V)) :
    pairsList (l1 ++ l2) = pairsList l1 ++ pairsList l2 :=
  List.filterMap_append l1 l2 entryPair

theorem entryPair_empty : entryPair (emptyEntry : Entry K V) = none := rfl

theorem pairsList_replicate (n : Nat) :
    pairsList (List.replicate n (emptyEntry : Entry K V)) = [] := by
  induction n with
  | zero => rfl
  | succ n ih => simp [List.replicate_succ, pairsList_cons, ih, entryPair_empty]

theorem getD_lt {α : Type} {l : List α} {p : Nat} {d : α} (hp : p < l.length) :
    l.getD p d = l[p] := by
  simp [List.getD_eq_getElem?_getD, List.getElem?_eq_getElem hp]

theorem entries_decomp (l : List (Entry K V)) (p : Nat) (hp : p < l.length) :
    l = l.take p ++ l.getD p emptyEntry :: l.drop (p + 1) := by
  conv_lhs => rw [← List.take_append_drop p l]
  rw [List.drop_eq_getElem_cons hp, getD_lt hp]

theorem pairsM_set (l : List (Entry K V)) (i : Nat) (e : Entry K V)
    (h : i < l.length) :
    (↑(pairsList (l.set i e)) : Multiset (K × V)) +
        ↑(entryPair (l.getD i emptyEntry)).toList
      = ↑(pairsList l) + ↑(entryPair e).toList := by
  have hset : l.set i e = l.take i ++ e :: l.drop (i + 1) :=
    List.set_eq_take_cons_drop e h
  have hl : l = l.take i ++ l.getD i emptyEntry :: l.drop (i + 1) :=
    entries_decomp l i h
  rw [hset]
  conv_rhs => rw [hl]
  simp only [pairsList_append, pairsList_cons, ← Multiset.coe_add]
  abel

theorem pairsM_set_free (l : List (Entry K V)) (i : Nat) (e : Entry K V)
    (h : i < l.length) (hfree : (l.getD i emptyEntry).status ≠ Status.occupied)
    (hocc : e.status = Status.occupied) :
    (↑(pairsList (l.set i e)) : Multiset (K × V))
      = ↑(pairsList l) + {(e.key, e.value)} := by
  have hh := pairsM_set l i e h
  rw [entryPair_not_occupied hfree, entryPair_occupied hocc] at hh
  simpa [← Multiset.coe_singleton] using hh

theorem pairsM_set_swap (l : List (Entry K V)) (i : Nat) (e : Entry K V)
    (h : i < l.length) (hold : (l.getD i emptyEntry).status = Status.occupied)
    (hocc : e.status = Status.occupied) :
    (↑(pairsList (l.set i e)) : Multiset (K × V)) +
        {((l.getD i emptyEntry).key, (l.getD i emptyEntry).value)}
      = ↑(pairsList l) + {(e.key, e.value)} := by
  have hh := pairsM_set l i e h
  rw [entryPair_occupied hold, entryPair_occupied hocc] at hh
  simpa [← Multiset.coe_singleton] using hh

theorem pairsList_length_countP (l : List (Entry K V)) :
    (pairsList l).length = l.countP (fun e => decide (e.status = Status.occupied)) := by
  induction l with
  | nil => rfl
  | cons e l ih =>
    by_cases h : e.status = Status.occupied <;>
      simp [pairsList_cons, ih, entryPair, h, List.countP_cons]

theorem pair_mem_pairsList {l : List (Entry K V)} {kv : K × V}
    (h : kv ∈ pairsList l) :
    ∃ i, i < l.length ∧ (l.getD i emptyEntry).status = Status.occupied ∧
      (l.getD i emptyEntry).key = kv.1 ∧ (l.getD i emptyEntry).value = kv.2 := by
  obtain ⟨e, he, hpe⟩ := List.mem_filterMap.mp h
  obtain ⟨i, hi, hei⟩ := List.mem_iff_getElem.mp he
  refine ⟨i, hi, ?_⟩
  rw [getD_lt hi, hei]
  by_cases hocc : e.status = Status.occupied
  · rw [entryPair_occupied hocc] at hpe
    cases hpe
    exact ⟨hocc, rfl, rfl⟩
  · rw [entryPair_not_occupied hocc] at hpe
    cases hpe

theorem pairsList_mem_of_occupied {l : List (Entry K V)} {i : Nat}
    (hi : i < l.length) (hocc : (l.getD i emptyEntry).status = Status.occupied) :
    ((l.getD i emptyEntry).key, (l.getD i emptyEntry).value) ∈ pairsList l := by
  refine List.mem_filterMap.mpr ⟨l.getD i emptyEntry, ?_, entryPair_occupied hocc⟩
  rw [getD_lt hi]
  exact List.getElem_mem hi

end RobinHood

/-! Properties of the Robin Hood placement loop. -/

namespace RobinHood

variable {K V : Type} [Inhabited K] [Inhabited V]

theorem getEntry_placed_self {t : Table K V} {i : Nat} (e : Entry K V)
    (h : i < t.entries.length) : getEntry (placed t i e) i = e := by
  simp [getEntry, placed, List.getD_eq_getElem?_getD, List.getElem?_set_self h]

theorem getEntry_placed_ne {t : Table K V} {i j : Nat} (e : Entry K V)
    (h : i ≠ j) : getEntry (placed t i e) j = getEntry t j := by
  simp [getEntry, placed, List.getD_eq_getElem?_getD, List.getElem?_set_ne h]

theorem getEntry_placed_oob {t : Table K V} {i : Nat} (e : Entry K V)
    (h : ¬i < t.entries.length) (j : Nat) :
    getEntry (placed t i e) j = getEntry t j := by
  simp [getEntry, placed, List.set_eq_of_length_le (Nat.le_of_not_lt h)]

theorem placeLoop_basic {fuel : Nat} :
    ∀ {t : Table K V} {e : Entry K V} {index dist : Nat} {t2 : Table K V},
      placeLoop t e index dist fuel = some t2 →
      t2.capacity = t.capacity ∧ t2.count = t.count + 1 ∧
      t2.entries.length = t.entries.length ∧ t2.hash_fn = t.hash_fn ∧
      t2.cmp_fn = t.cmp_fn ∧ t2.grow_factor = t.grow_factor := by
  induction fuel with
  | zero =>
    intro t e index dist t2 h
    simp [placeLoop] at h
  | succ fuel ih =>
    intro t e index dist t2 h
    rw [placeLoop] at h
    dsimp only at h
    split at h
    · cases h
      exact ⟨rfl, rfl, by simp [placed], rfl, rfl, rfl⟩
    · split at h
      · have hh := ih h
        simpa [setEntry] using hh
      · exact ih h

theorem placeLoop_status {fuel : Nat} :
    ∀ {t : Table K V} {e : Entry K V} {index dist : Nat} {t2 : Table K V},
      e.status = Status.occupied →
      placeLoop t e index dist fuel = some t2 →
      ∀ i, slotStatus t2 i = slotStatus t i ∨ slotStatus t2 i = Status.occupied := by
  induction fuel with
  | zero =>
    intro t e index dist t2 _ h
    simp [placeLoop] at h
  | succ fuel ih =>
    intro t e index dist t2 he h
    rw [placeLoop] at h
    dsimp only at h
    split at h
    · cases h
      intro i
      by_cases hlen : index < t.entries.length
      · by_cases hi : index = i
        · subst hi
          right
          simp [slotStatus, getEntry_placed_self e hlen, he]
        · left
          simp [slotStatus, getEntry_placed_ne e hi]
      · left
        simp [slotStatus, getEntry_placed_oob e hlen]
    · rename_i hnotfree
      have hcur : (getEntry t index).status = Status.occupied :=
        status_not_free hnotfree
      split at h
      · intro i
        rcases ih hcur h i with hsame | hocc
        · rw [hsame]
          by_cases hlen : index < t.entries.length
          · by_cases hi : index = i
            · subst hi
              right
              simp [slotStatus, setEntry, getEntry, List.getD_eq_getElem?_getD,
                List.getElem?_set_self hlen, he]
            · left
              simp [slotStatus, setEntry, getEntry, List.getD_eq_getElem?_getD,
                List.getElem?_set_ne hi]
          · left
            simp [slotStatus, getEntry, setEntry,
              List.set_eq_of_length_le (Nat.le_of_not_lt hlen)]
        · right
          exact hocc
      · intro i
        exact ih he h i

theorem placeLoop_not_empty {fuel : Nat} {t : Table K V} {e : Entry K V}
    {index dist : Nat} {t2 : Table K V} (he : e.status = Status.occupied)
    (h : placeLoop t e index dist fuel = some t2) {i : Nat}
    (hi : slotStatus t i ≠ Status.empty) : slotStatus t2 i ≠ Status.empty := by
  rcases placeLoop_status he h i with hsame | hocc
  · rw [hsame]; exact hi
  · rw [hocc]; intro hc; cases hc

theorem placeLoop_noTomb {fuel : Nat} {t : Table K V} {e : Entry K V}
    {index dist : Nat} {t2 : Table K V} (he : e.status = Status.occupied)
    (h : placeLoop t e index dist fuel = some t2) (hnt : noTomb t) : noTomb t2 := by
  intro i hi
  have hcap := (placeLoop_basic h).1
  rcases placeLoop_status he h i with hsame | hocc
  · rw [hsame]
    exact hnt i (by rw [← hcap]; exact hi)
  · rw [hocc]; intro hc; cases hc

end RobinHood

/-! The placement loop preserves the occupied pairs (adding the carried one)
and the Robin Hood reachability invariant. -/

namespace RobinHood

variable {K V : Type} [Inhabited K] [Inhabited V]

theorem slotStatus_setEntry_eq {t : Table K V} {index : Nat} {e : Entry K V}
    (he : e.status = (getEntry t index).status) (x : Nat) :
    slotStatus (setEntry t index e) x = slotStatus t x := by
  by_cases hlen : index < t.entries.length
  · by_cases hx : index = x
    · subst hx
      simp [slotStatus, getEntry_set_self e hlen, he]
    · simp [slotStatus, getEntry_set_ne e hx]
  · simp [slotStatus, getEntry, setEntry,
      List.set_eq_of_length_le (Nat.le_of_not_lt hlen)]

theorem walkInv_congr {t t2 : Table K V} (hcap : t2.capacity = t.capacity)
    (hst : ∀ x, slotStatus t2 x = slotStatus t x) {a n : Nat}
    (h : walkInv t a n) : walkInv t2 a n := by
  intro j hj
  rw [hcap, hst]
  exact h j hj

theorem placeLoop_pairs {fuel : Nat} :
    ∀ {t : Table K V} {e : Entry K V} {index dist : Nat} {t2 : Table K V},
      t.entries.length = t.capacity → 0 < t.capacity → index < t.capacity →
      e.status = Status.occupied →
      placeLoop t e index dist fuel = some t2 →
      (↑(pairsList t2.entries) : Multiset (K × V))
        = ↑(pairsList t.entries) + {(e.key, e.value)} := by
  induction fuel with
  | zero =>
    intro t e index dist t2 _ _ _ _ h
    simp [placeLoop] at h
  | succ fuel ih =>
    intro t e index dist t2 hlen hcap hidx hocc h
    rw [placeLoop] at h
    dsimp only at h
    split at h
    · rename_i hfree
      cases h
      have hil : index < t.entries.length := by rw [hlen]; exact hidx
      have hfree2 : (t.entries.getD index emptyEntry).status ≠ Status.occupied := by
        have hne : (getEntry t index).status ≠ Status.occupied := by
          rcases hfree with h1 | h1 <;> rw [h1] <;> intro hc <;> cases hc
        exact hne
      exact pairsM_set_free t.entries index e hil hfree2 hocc
    · rename_i hnotfree
      have hcur : (getEntry t index).status = Status.occupied :=
        status_not_free hnotfree
      split at h
      · have hil : index < t.entries.length := by rw [hlen]; exact hidx
        have hstep := ih (t := setEntry t index e)
          (by simpa [setEntry] using hlen) hcap (Nat.mod_lt _ hcap) hcur h
        have hswap := pairsM_set_swap t.entries index e hil hcur hocc
        rw [hstep]
        exact hswap
      · exact ih hlen hcap (Nat.mod_lt _ hcap) hocc h

end RobinHood

namespace RobinHood

variable {K V : Type} [Inhabited K] [Inhabited V]

theorem placeLoop_wf {fuel : Nat} :
    ∀ {t : Table K V} {e : Entry K V} {index dist : Nat} {t2 : Table K V},
      t.entries.length = t.capacity → 0 < t.capacity →
      hashInv t → reachInv t →
      e.status = Status.occupied → e.hash = hashKey t e.key →
      index = (e.hash % t.capacity + dist) % t.capacity →
      walkInv t (e.hash % t.capacity) dist →
      placeLoop t e index dist fuel = some t2 →
      hashInv t2 ∧ reachInv t2 := by
  induction fuel with
  | zero =>
    intro t e index dist t2 _ _ _ _ _ _ _ _ h
    simp [placeLoop] at h
  | succ fuel ih =>
    intro t e index dist t2 hlen hcap hHI hRI hocc hhash hidx hwalk h
    have hidxlt : index < t.capacity := by
      rw [hidx]; exact Nat.mod_lt _ hcap
    have hil : index < t.entries.length := by rw [hlen]; exact hidxlt
    have hpd : hash_probe_distance e.hash index t.capacity = dist % t.capacity := by
      rw [hidx]; exact probe_dist_walk hcap
    have hslot : (e.hash % t.capacity + dist % t.capacity) % t.capacity = index := by
      rw [Nat.add_mod_mod, ← hidx]
    rw [placeLoop] at h
    dsimp only at h
    split at h
    · rename_i hfree
      cases h
      have hstat : ∀ x, x ≠ index → slotStatus (placed t index e) x = slotStatus t x := by
        intro x hx
        simp [slotStatus, getEntry_placed_ne e (fun hh => hx hh.symm)]
      have hstatx : slotStatus (placed t index e) index = Status.occupied := by
        simp [slotStatus, getEntry_placed_self e hil, hocc]
      have hlift : ∀ x, slotStatus t x ≠ Status.empty →
          slotStatus (placed t index e) x ≠ Status.empty := by
        intro x hx
        by_cases hxi : x = index
        · subst hxi
          rw [hstatx]
          intro hc; cases hc
        · rw [hstat x hxi]; exact hx
      constructor
      · intro i hi hocci
        by_cases hxi : i = index
        · subst hxi
          rw [getEntry_placed_self e hil]
          exact hhash
        · rw [getEntry_placed_ne e (fun hh => hxi hh.symm)]
          refine hHI i hi ?_
          rw [← hstat i hxi]
          exact hocci
      · intro i hi hocci
        by_cases hxi : i = index
        · subst hxi
          rw [getEntry_placed_self e hil]
          intro j hj
          have hj2 : j < dist % t.capacity + 1 := by
            rw [← hpd]; exact hj
          rcases Nat.lt_succ_iff_lt_or_eq.mp hj2 with hjlt | hjeq
          · have hjd : j < dist := Nat.lt_of_lt_of_le hjlt (Nat.mod_le dist _)
            exact hlift _ (hwalk j hjd)
          · subst hjeq
            have hx : (e.hash % (placed t i e).capacity + dist % t.capacity)
                % (placed t i e).capacity = i := hslot
            rw [hx, hstatx]
            intro hc; cases hc
        · rw [getEntry_placed_ne e (fun hh => hxi hh.symm)]
          have hocct : slotStatus t i = Status.occupied := by
            rw [← hstat i hxi]; exact hocci
          intro j hj
          exact hlift _ (hRI i hi hocct j hj)
    · rename_i hnotfree
      have hcur : (getEntry t index).status = Status.occupied :=
        status_not_free hnotfree
      have hsteq : ∀ x, slotStatus (setEntry t index (e := e)) x = slotStatus t x :=
        slotStatus_setEntry_eq (by rw [hocc, hcur])
      have hlen3 : (setEntry t index e).entries.length = (setEntry t index e).capacity := by
        simpa [setEntry] using hlen
      split at h
      · rename_i hlt
        refine ih hlen3 hcap ?_ ?_ hcur ?_ ?_ ?_ h
        · -- hashInv of the table after the swap write
          intro i hi hocci
          by_cases hxi : i = index
          · subst hxi
            rw [getEntry_set_self e hil]
            exact hhash
          · rw [getEntry_set_ne e (fun hh => hxi hh.symm)]
            refine hHI i hi ?_
            rw [← hsteq i]
            exact hocci
        · -- reachInv of the table after the swap write
          intro i hi hocci
          by_cases hxi : i = index
          · subst hxi
            rw [getEntry_set_self e hil]
            intro j hj
            have hj2 : j < dist % t.capacity + 1 := by
              rw [← hpd]; exact hj
            rw [hsteq]
            rcases Nat.lt_succ_iff_lt_or_eq.mp hj2 with hjlt | hjeq
            · have hjd : j < dist := Nat.lt_of_lt_of_le hjlt (Nat.mod_le dist _)
              exact hwalk j hjd
            · subst hjeq
              have hx : (e.hash % (setEntry t i e).capacity + dist % t.capacity)
                  % (setEntry t i e).capacity = i := hslot
              rw [hx]
              simp [slotStatus, hcur]
          · rw [getEntry_set_ne e (fun hh => hxi hh.symm)]
            have hocct : slotStatus t i = Status.occupied := by
              rw [← hsteq i]; exact hocci
            intro j hj
            rw [hsteq]
            exact hRI i hi hocct j hj
        · -- cached hash of the dislodged entry
          exact hHI index hidxlt hcur
        · -- the probe position of the dislodged entry
          have hhome2 : (getEntry t index).hash % t.capacity < t.capacity :=
            Nat.mod_lt _ hcap
          have hce : ((getEntry t index).hash % t.capacity +
              hash_probe_distance (getEntry t index).hash index t.capacity)
                % t.capacity = index := mod_cycle hhome2 hidxlt
          show (index + 1) % t.capacity =
            ((getEntry t index).hash % t.capacity +
              (hash_probe_distance (getEntry t index).hash index t.capacity + 1))
                % t.capacity
          conv_rhs => rw [← walk_step]
          rw [hce]
        · -- the dislodged entry has a non-empty trail back to its home
          have hr := hRI index hidxlt hcur
          intro j hj
          rw [hsteq]
          exact hr j hj
      · refine ih hlen hcap hHI hRI hocc hhash ?_ ?_ h
        · conv_rhs => rw [← walk_step]
          rw [← hidx]
        · intro j hj
          rcases Nat.lt_succ_iff_lt_or_eq.mp hj with hjlt | hjeq
          · exact hwalk j hjlt
          · subst hjeq
            rw [← hidx]
            simp [slotStatus, hcur]

end RobinHood

/-! The insert / resize layer.  `InsertSpec` is the success contract of one
insert, proved by induction on the fuel (insert at fuel `n+1` resizes through
reinsertions that use insert at fuel `n`). -/

namespace RobinHood

variable {K V : Type} [Inhabited K] [Inhabited V]

theorem growCap_eq_floor (t : Table K V) (h : 0 ≤ t.grow_factor) :
    (growCap t : ℤ) = ⌊(t.capacity : ℚ) * t.grow_factor⌋ := by
  have hdenq : ((t.grow_factor.den : ℚ)) ≠ 0 := by
    exact_mod_cast t.grow_factor.den_nz
  have hq : (t.capacity : ℚ) * t.grow_factor
      = (((t.capacity : ℤ) * t.grow_factor.num : ℤ) : ℚ)
        / ((t.grow_factor.den : ℕ) : ℚ) := by
    conv_lhs => rw [← Rat.num_div_den t.grow_factor]
    rw [← mul_div_assoc]
    push_cast
    ring
  rw [hq, Rat.floor_intCast_div_natCast]
  unfold growCap
  have hnum : (t.grow_factor.num.toNat : ℤ) = t.grow_factor.num :=
    Int.toNat_of_nonneg (Rat.num_nonneg.mpr h)
  rw [Int.ofNat_ediv]
  push_cast [hnum]
  rfl

theorem growCap_ge_capacity (t : Table K V) (hgf : 1 ≤ t.grow_factor) :
    t.capacity ≤ growCap t := by
  unfold growCap
  have hd : 0 < t.grow_factor.den := t.grow_factor.pos
  have hfl : (1 : ℤ) ≤ Rat.floor t.grow_factor :=
    Rat.le_floor.mpr (by exact_mod_cast hgf)
  rw [Rat.floor_def'] at hfl
  have hdz : (0 : ℤ) < (t.grow_factor.den : ℤ) := by exact_mod_cast hd
  have hn : (t.grow_factor.den : ℤ) ≤ t.grow_factor.num := by
    have hh := (Int.le_ediv_iff_mul_le hdz).mp hfl
    simpa using hh
  have hn2 : t.grow_factor.den ≤ t.grow_factor.num.toNat := by omega
  calc t.capacity = t.capacity * t.grow_factor.den / t.grow_factor.den :=
        (Nat.mul_div_cancel _ hd).symm
    _ ≤ t.capacity * t.grow_factor.num.toNat / t.grow_factor.den :=
        Nat.div_le_div_right (Nat.mul_le_mul_left _ hn2)

theorem growCap_ok : GrowOK (growCap : Table K V → Nat) := by
  intro s hcap hgf
  exact Nat.lt_of_lt_of_le hcap (growCap_ge_capacity s hgf)

theorem growCapDouble_ok : GrowOK (growCapDouble : Table K V → Nat) := by
  intro s hcap _
  simp [growCapDouble]
  omega

theorem WF_init (cap : Nat) (gf : ℚ) (hf : K → Nat) (cf : K → K → Bool)
    (hcap : 0 < cap) (hgf : 1 ≤ gf) :
    WF (hashmap_init cap gf hf cf : Table K V) := by
  refine ⟨by simp [lenInv, hashmap_init], hcap, hgf, ?_, ?_, ?_⟩
  · show (0 : Nat) = _
    rw [show (hashmap_init cap gf hf cf : Table K V).entries
        = List.replicate cap emptyEntry from rfl, pairsList_replicate]
    rfl
  · intro i _ hocc
    rw [slotStatus, getEntry_init] at hocc
    cases hocc
  · intro i _ hocc
    rw [slotStatus, getEntry_init] at hocc
    cases hocc

theorem noTomb_init (cap : Nat) (gf : ℚ) (hf : K → Nat) (cf : K → K → Bool) :
    noTomb (hashmap_init cap gf hf cf : Table K V) := by
  intro i _
  rw [slotStatus, getEntry_init]
  intro hc
  cases hc

theorem resizeAux_fail {alloc : Nat → Bool}
    {ins : Table K V → K → V → Nat → InsRes K V} {t : Table K V}
    {nc ctr : Nat} {t2 : Table K V} {ctr2 : Nat} :
    resizeAux alloc ins t nc ctr = some ((false, t2), ctr2) → t2 = t := by
  intro h
  unfold resizeAux at h
  split at h
  · split at h
    · cases h
    · simp only [Option.some.injEq, Prod.mk.injEq] at h
      exact h.1.2.symm
    · simp at h
  · simp only [Option.some.injEq, Prod.mk.injEq] at h
    exact h.1.2.symm

theorem insertG_fail {grow : Table K V → Nat} {alloc : Nat → Bool} {fuel : Nat}
    {t : Table K V} {k : K} {v : V} {ctr : Nat} {t2 : Table K V} {ctr2 : Nat} :
    insertG grow alloc fuel t k v ctr = some ((false, t2), ctr2) → t2 = t := by
  intro h
  cases fuel with
  | zero => simp [insertG] at h
  | succ fuel =>
    rw [insertG] at h
    dsimp only at h
    split at h
    · cases h
    · rename_i heq
      simp only [Option.some.injEq, Prod.mk.injEq] at h
      split at heq
      · have := resizeAux_fail heq
        rw [← h.1.2, this]
      · simp at heq
    · split at h
      · cases h
      · simp at h

end RobinHood

namespace RobinHood

variable {K V : Type} [Inhabited K] [Inhabited V]

theorem WF_adopt {t nm : Table K V} (hwf : WF nm) (hh : nm.hash_fn = t.hash_fn)
    (hg : nm.grow_factor = t.grow_factor) : WF (adopt t nm) := by
  obtain ⟨hlen, hcap, hgf, hcount, hHI, hRI⟩ := hwf
  refine ⟨hlen, hcap, ?_, hcount, ?_, hRI⟩
  · show 1 ≤ t.grow_factor
    rw [← hg]
    exact hgf
  · intro i hi hocc
    have hhi := hHI i hi hocc
    show (getEntry nm i).hash = (adopt t nm).hash_fn (getEntry nm i).key % 2 ^ 32
    show (getEntry nm i).hash = t.hash_fn (getEntry nm i).key % 2 ^ 32
    rw [← hh]
    exact hhi

theorem noTomb_adopt {t nm : Table K V} (hnt : noTomb nm) : noTomb (adopt t nm) :=
  hnt

theorem reinsertList_ok {grow : Table K V → Nat} {alloc : Nat → Bool} {fuel : Nat}
    (hins : InsertSpec grow alloc fuel) :
    ∀ (src : List (Entry K V)) (acc : Table K V) (ctr : Nat) (nm : Table K V)
      (ctr2 : Nat), WF acc →
      reinsertList (insertG grow alloc fuel) src acc ctr = some (some nm, ctr2) →
      WF nm ∧
      (↑(pairsList nm.entries) : Multiset (K × V))
        = ↑(pairsList acc.entries) + ↑(pairsList src) ∧
      nm.count = acc.count + (pairsList src).length ∧
      nm.hash_fn = acc.hash_fn ∧ nm.cmp_fn = acc.cmp_fn ∧
      nm.grow_factor = acc.grow_factor ∧
      (noTomb acc → noTomb nm) := by
  intro src
  induction src with
  | nil =>
    intro acc ctr nm ctr2 hwf h
    simp only [reinsertList, Option.some.injEq, Prod.mk.injEq] at h
    obtain ⟨hnm, _⟩ := h
    subst hnm
    refine ⟨hwf, by simp [pairsList], by simp [pairsList], rfl, rfl, rfl, fun x => x⟩
  | cons e rest ih =>
    intro acc ctr nm ctr2 hwf h
    rw [reinsertList] at h
    split at h
    · rename_i hocc
      split at h
      · cases h
      · simp at h
      · rename_i acc2 ctrX heq
        have hstep := hins acc e.key e.value ctr acc2 ctrX hwf heq
        have hrest := ih acc2 ctrX nm ctr2 hstep.1 h
        refine ⟨hrest.1, ?_, ?_, ?_, ?_, ?_, ?_⟩
        · rw [hrest.2.1, hstep.2.1, pairsList_cons, entryPair_occupied hocc]
          show _ = _ + (↑([(e.key, e.value)] ++ pairsList rest) : Multiset (K × V))
          rw [← Multiset.coe_add, ← Multiset.coe_singleton]
          abel
        · rw [hrest.2.2.1, hstep.2.2.1, pairsList_cons, entryPair_occupied hocc]
          simp only [Option.toList_some, List.length_append, List.length_cons,
            List.length_nil, List.singleton_append]
          omega
        · rw [hrest.2.2.2.1, hstep.2.2.2.1]
        · rw [hrest.2.2.2.2.1, hstep.2.2.2.2.1]
        · rw [hrest.2.2.2.2.2.1, hstep.2.2.2.2.2.1]
        · intro hnt
          exact hrest.2.2.2.2.2.2 (hstep.2.2.2.2.2.2 hnt)
    · rename_i hnocc
      have hrest := ih acc ctr nm ctr2 hwf h
      have hpc : pairsList (e :: rest) = pairsList rest := by
        rw [pairsList_cons, entryPair_not_occupied hnocc]
        simp
      rw [hpc]
      exact hrest

theorem resizeAux_ok {grow : Table K V → Nat} {alloc : Nat → Bool} {fuel : Nat}
    (hins : InsertSpec grow alloc fuel) {t : Table K V} {nc ctr : Nat}
    {t1 : Table K V} {ctr1 : Nat} (hwf : WF t) (hnc : 0 < nc)
    (h : resizeAux alloc (insertG grow alloc fuel) t nc ctr
      = some ((true, t1), ctr1)) :
    WF t1 ∧
    (↑(pairsList t1.entries) : Multiset (K × V)) = ↑(pairsList t.entries) ∧
    t1.count = t.count ∧
    t1.hash_fn = t.hash_fn ∧ t1.cmp_fn = t.cmp_fn ∧
    t1.grow_factor = t.grow_factor ∧ noTomb t1 := by
  unfold resizeAux at h
  split at h
  · split at h
    · cases h
    · simp at h
    · rename_i nm ctrX heq
      simp only [Option.some.injEq, Prod.mk.injEq] at h
      obtain ⟨⟨_, ht1⟩, _⟩ := h
      have hwfF : WF (freshLike t nc) :=
        WF_init nc t.grow_factor t.hash_fn t.cmp_fn hnc hwf.2.2.1
      have hre := reinsertList_ok hins t.entries (freshLike t nc) (ctr + 1)
        nm ctrX hwfF heq
      have hfreshp : pairsList (freshLike t nc : Table K V).entries = [] := by
        show pairsList (List.replicate nc emptyEntry) = []
        exact pairsList_replicate nc
      have hntF : noTomb (freshLike t nc : Table K V) :=
        noTomb_init nc t.grow_factor t.hash_fn t.cmp_fn
      have hpairs : (↑(pairsList nm.entries) : Multiset (K × V))
          = ↑(pairsList t.entries) := by
        rw [hre.2.1, hfreshp]
        simp
      have hcnt : nm.count = t.count := by
        rw [hre.2.2.1]
        have hf0 : (freshLike t nc : Table K V).count = 0 := rfl
        rw [hf0, Nat.zero_add]
        exact hwf.2.2.2.1.symm
      subst ht1
      have hhf : nm.hash_fn = t.hash_fn := hre.2.2.2.1
      have hcf : nm.cmp_fn = t.cmp_fn := hre.2.2.2.2.1
      have hgf2 : nm.grow_factor = t.grow_factor := hre.2.2.2.2.2.1
      exact ⟨WF_adopt hre.1 hhf hgf2, hpairs, hcnt, rfl, rfl, rfl,
        noTomb_adopt (hre.2.2.2.2.2.2 hntF)⟩
  · simp at h

end RobinHood

namespace RobinHood

variable {K V : Type} [Inhabited K] [Inhabited V]

theorem insertSpec_all {grow : Table K V → Nat} {alloc : Nat → Bool}
    (hgrow : GrowOK grow) : ∀ fuel, InsertSpec grow alloc fuel := by
  intro fuel
  induction fuel with
  | zero =>
    intro t k v ctr t2 ctr2 _ h
    simp [insertG] at h
  | succ fuel ih =>
    intro t k v ctr t2 ctr2 hwf h
    rw [insertG] at h
    dsimp only at h
    split at h
    · cases h
    · simp at h
    · rename_i t1 ctr1 heq
      -- first obtain the facts about the (possibly resized) table t1
      have h1 : WF t1 ∧
          (↑(pairsList t1.entries) : Multiset (K × V)) = ↑(pairsList t.entries) ∧
          t1.count = t.count ∧ t1.hash_fn = t.hash_fn ∧ t1.cmp_fn = t.cmp_fn ∧
          t1.grow_factor = t.grow_factor ∧ (noTomb t → noTomb t1) ∧ ctr1 = ctr ∨
          WF t1 ∧
          (↑(pairsList t1.entries) : Multiset (K × V)) = ↑(pairsList t.entries) ∧
          t1.count = t.count ∧ t1.hash_fn = t.hash_fn ∧ t1.cmp_fn = t.cmp_fn ∧
          t1.grow_factor = t.grow_factor ∧ noTomb t1 := by
        split at heq
        · right
          have hnc : 0 < grow t := hgrow t hwf.2.1 hwf.2.2.1
          have hres := resizeAux_ok ih hwf hnc heq
          exact ⟨hres.1, hres.2.1, hres.2.2.1, hres.2.2.2.1, hres.2.2.2.2.1,
            hres.2.2.2.2.2.1, hres.2.2.2.2.2.2⟩
        · left
          simp only [Option.some.injEq, Prod.mk.injEq] at heq
          obtain ⟨⟨_, ht1⟩, hc1⟩ := heq
          subst ht1
          exact ⟨hwf, rfl, rfl, rfl, rfl, rfl, fun x => x, hc1.symm⟩
      have hwf1 : WF t1 := by
        rcases h1 with h1 | h1 <;> exact h1.1
      have hpairs1 : (↑(pairsList t1.entries) : Multiset (K × V))
          = ↑(pairsList t.entries) := by
        rcases h1 with h1 | h1 <;> exact h1.2.1
      have hcnt1 : t1.count = t.count := by
        rcases h1 with h1 | h1 <;> exact h1.2.2.1
      have hhf1 : t1.hash_fn = t.hash_fn := by
        rcases h1 with h1 | h1 <;> exact h1.2.2.2.1
      have hcf1 : t1.cmp_fn = t.cmp_fn := by
        rcases h1 with h1 | h1 <;> exact h1.2.2.2.2.1
      have hgf1 : t1.grow_factor = t.grow_factor := by
        rcases h1 with h1 | h1 <;> exact h1.2.2.2.2.2.1
      have hnt1 : noTomb t → noTomb t1 := by
        rcases h1 with h1 | h1
        · exact h1.2.2.2.2.2.2.1
        · exact fun _ => h1.2.2.2.2.2.2
      -- then analyse the placement
      split at h
      · cases h
      · rename_i t3 hplace
        simp only [Option.some.injEq, Prod.mk.injEq] at h
        obtain ⟨⟨_, ht3⟩, hctr⟩ := h
        subst ht3
        obtain ⟨hlen1, hcap1, hgfq1, hcount1, hHI1, hRI1⟩ := hwf1
        have hbasic := placeLoop_basic hplace
        have hplacedpairs := placeLoop_pairs hlen1 hcap1
          (Nat.mod_lt _ hcap1) rfl hplace
        have hplacedwf := placeLoop_wf hlen1 hcap1 hHI1 hRI1 rfl rfl
          (by
            rw [Nat.add_zero]
            exact (Nat.mod_mod_of_dvd _ dvd_rfl).symm)
          (by intro j hj; exact absurd hj (Nat.not_lt_zero j))
          hplace
        have hcard : (pairsList t3.entries).length
            = (pairsList t1.entries).length + 1 := by
          have hc := congrArg Multiset.card hplacedpairs
          simpa [Multiset.coe_card] using hc
        have hwf2 : WF t3 := by
          refine ⟨?_, ?_, ?_, ?_, hplacedwf.1, hplacedwf.2⟩
          · show t3.entries.length = t3.capacity
            rw [hbasic.2.2.1, hbasic.1, hlen1]
          · rw [hbasic.1]
            exact hcap1
          · rw [hbasic.2.2.2.2.2]
            exact hgfq1
          · show t3.count = (pairsList t3.entries).length
            rw [hbasic.2.1, hcard, hcount1]
        refine ⟨hwf2, ?_, ?_, ?_, ?_, ?_, ?_⟩
        · rw [hplacedpairs, hpairs1]
        · rw [hbasic.2.1, hcnt1]
        · rw [hbasic.2.2.2.1, hhf1]
        · rw [hbasic.2.2.2.2.1, hcf1]
        · rw [hbasic.2.2.2.2.2, hgf1]
        · intro hnt
          exact placeLoop_noTomb rfl hplace (hnt1 hnt)

end RobinHood

/-! Lookup: the scan finds a reachable occupied match, and reports NotFound
when no slot matches and an EMPTY slot terminates the walk. -/

namespace RobinHood

variable {K V : Type} [Inhabited K] [Inhabited V]

theorem getLoop_reach {t : Table K V} {k : K} {p : Nat}
    (hcap : 0 < t.capacity) (hp : p < t.capacity)
    (hocc : slotStatus t p = Status.occupied)
    (hkey : t.cmp_fn (getEntry t p).key k = true)
    (hhash : (getEntry t p).hash = hashKey t k)
    (huniq : ∀ q, q < t.capacity → q ≠ p → slotStatus t q = Status.occupied →
      t.cmp_fn (getEntry t q).key k = false)
    (hreach : reachInv t) :
    ∀ fuel j, j ≤ hash_probe_distance (hashKey t k) p t.capacity →
      hash_probe_distance (hashKey t k) p t.capacity - j < fuel →
      getLoop t k (hashKey t k)
          ((hashKey t k % t.capacity + j) % t.capacity) fuel
        = some (some (getEntry t p).value) := by
  have hwk : walkInv t (hashKey t k % t.capacity)
      (hash_probe_distance (hashKey t k) p t.capacity + 1) := by
    have hh := hreach p hp hocc
    rw [hhash] at hh
    exact hh
  have hpd_lt : hash_probe_distance (hashKey t k) p t.capacity < t.capacity :=
    Nat.mod_lt _ hcap
  have hpidx : (hashKey t k % t.capacity +
      hash_probe_distance (hashKey t k) p t.capacity) % t.capacity = p :=
    mod_cycle (Nat.mod_lt _ hcap) hp
  intro fuel
  induction fuel with
  | zero =>
    intro j _ hfj
    exact absurd hfj (Nat.not_lt_zero _)
  | succ fuel ih =>
    intro j hj hfj
    rw [getLoop]
    by_cases hjp : j = hash_probe_distance (hashKey t k) p t.capacity
    · subst hjp
      rw [hpidx]
      have hsne : ¬(getEntry t p).status = Status.empty := by
        rw [show (getEntry t p).status = slotStatus t p from rfl, hocc]
        intro hc; cases hc
      rw [if_neg hsne, if_pos ⟨hocc, hhash, hkey⟩]
    · have hjlt : j < hash_probe_distance (hashKey t k) p t.capacity :=
        Nat.lt_of_le_of_ne hj hjp
      have hidxlt : (hashKey t k % t.capacity + j) % t.capacity < t.capacity :=
        Nat.mod_lt _ hcap
      have hne : (hashKey t k % t.capacity + j) % t.capacity ≠ p := by
        intro hccc
        rw [← hpidx] at hccc
        exact hjp (walk_inj (Nat.lt_trans hjlt hpd_lt) hpd_lt hccc)
      have hnemp : ¬(getEntry t ((hashKey t k % t.capacity + j) % t.capacity)).status
          = Status.empty :=
        hwk j (Nat.lt_succ_of_lt hjlt)
      have hnomat : ¬((getEntry t ((hashKey t k % t.capacity + j) % t.capacity)).status
            = Status.occupied ∧
          (getEntry t ((hashKey t k % t.capacity + j) % t.capacity)).hash = hashKey t k ∧
          t.cmp_fn (getEntry t ((hashKey t k % t.capacity + j) % t.capacity)).key k
            = true) := by
        rintro ⟨ho, _, hc⟩
        have hfalse := huniq _ hidxlt hne ho
        rw [hfalse] at hc
        cases hc
      rw [if_neg hnemp, if_neg hnomat]
      have hstep : ((hashKey t k % t.capacity + j) % t.capacity + 1) % t.capacity
          = (hashKey t k % t.capacity + (j + 1)) % t.capacity := walk_step
      rw [hstep]
      exact ih (j + 1) hjlt (by omega)

theorem hashmap_get_finds {t : Table K V} {k : K} {p : Nat}
    (hcap : 0 < t.capacity) (hp : p < t.capacity)
    (hocc : slotStatus t p = Status.occupied)
    (hkey : t.cmp_fn (getEntry t p).key k = true)
    (hhash : (getEntry t p).hash = hashKey t k)
    (huniq : ∀ q, q < t.capacity → q ≠ p → slotStatus t q = Status.occupied →
      t.cmp_fn (getEntry t q).key k = false)
    (hreach : reachInv t) :
    hashmap_get t k = some (some (getEntry t p).value) := by
  have h0 : hashKey t k % t.capacity
      = (hashKey t k % t.capacity + 0) % t.capacity := by
    rw [Nat.add_zero]
    exact (Nat.mod_mod_of_dvd _ dvd_rfl).symm
  unfold hashmap_get
  rw [h0]
  refine getLoop_reach hcap hp hocc hkey hhash huniq hreach t.capacity 0
    (Nat.zero_le _) ?_
  have hpdlt : hash_probe_distance (hashKey t k) p t.capacity < t.capacity :=
    Nat.mod_lt _ hcap
  omega

theorem getLoop_no_match {t : Table K V} {k : K} {h : Nat}
    (hcap : 0 < t.capacity)
    (hnomatch : ∀ q, q < t.capacity → slotStatus t q = Status.occupied →
      (getEntry t q).hash = h → t.cmp_fn (getEntry t q).key k = false) :
    ∀ fuel idx j, idx < t.capacity →
      slotStatus t ((idx + j) % t.capacity) = Status.empty →
      j < fuel → getLoop t k h idx fuel = some none := by
  intro fuel
  induction fuel with
  | zero =>
    intro idx j _ _ hf
    exact absurd hf (Nat.not_lt_zero _)
  | succ fuel ih =>
    intro idx j hidx hemp hf
    rw [getLoop]
    by_cases hse : (getEntry t idx).status = Status.empty
    · rw [if_pos hse]
    · have hj0 : j ≠ 0 := by
        intro hj0
        subst hj0
        rw [Nat.add_zero, Nat.mod_eq_of_lt hidx] at hemp
        exact hse hemp
      have hnomat : ¬((getEntry t idx).status = Status.occupied ∧
          (getEntry t idx).hash = h ∧ t.cmp_fn (getEntry t idx).key k = true) := by
        rintro ⟨ho, hh, hc⟩
        have hfalse := hnomatch idx hidx ho hh
        rw [hfalse] at hc
        cases hc
      rw [if_neg hse, if_neg hnomat]
      refine ih ((idx + 1) % t.capacity) (j - 1) (Nat.mod_lt _ hcap) ?_ (by omega)
      have harith : ((idx + 1) % t.capacity + (j - 1)) % t.capacity
          = (idx + j) % t.capacity := by
        rw [Nat.mod_add_mod]
        congr 1
        omega
      rw [harith]
      exact hemp

end RobinHood

/-! Removal: a successful remove tombstones exactly one matching slot. -/

namespace RobinHood

variable {K V : Type} [Inhabited K] [Inhabited V]

theorem getEntry_tombstoned_self {t : Table K V} {p : Nat}
    (h : p < t.entries.length) :
    getEntry (tombstoned t p) p
      = { getEntry t p with key := default, status := Status.tombstone } := by
  simp [getEntry, tombstoned, List.getD_eq_getElem?_getD, List.getElem?_set_self h]

theorem getEntry_tombstoned_ne {t : Table K V} {p q : Nat} (h : p ≠ q) :
    getEntry (tombstoned t p) q = getEntry t q := by
  simp [getEntry, tombstoned, List.getD_eq_getElem?_getD, List.getElem?_set_ne h]

theorem removeLoop_succ {t : Table K V} {k : K} {h : Nat} :
    ∀ fuel index {t2 : Table K V}, 0 < t.capacity → index < t.capacity →
      removeLoop t k h index fuel = some (true, t2) →
      ∃ p, p < t.capacity ∧ slotStatus t p = Status.occupied ∧
        (getEntry t p).hash = h ∧ t.cmp_fn (getEntry t p).key k = true ∧
        t2 = tombstoned t p := by
  intro fuel
  induction fuel with
  | zero =>
    intro index t2 _ _ hrun
    simp [removeLoop] at hrun
  | succ fuel ih =>
    intro index t2 hcap hidx hrun
    rw [removeLoop] at hrun
    split at hrun
    · simp at hrun
    · split at hrun
      · rename_i hmatch
        simp only [Option.some.injEq, Prod.mk.injEq, true_and] at hrun
        exact ⟨index, hidx, hmatch.1, hmatch.2.1, hmatch.2.2, hrun.symm⟩
      · exact ih ((index + 1) % t.capacity) hcap (Nat.mod_lt _ hcap) hrun

end RobinHood

/-! Iterator: draining a fresh iterator yields exactly the occupied entries in
slot order. -/

namespace RobinHood

variable {K V : Type} [Inhabited K] [Inhabited V]

theorem iterNextLoop_oob {t : Table K V} {i : Nat} (h : ¬i < t.capacity) :
    iterNextLoop t i = (none, i) := by
  rw [iterNextLoop]
  simp [h]

theorem iterNextLoop_occ {t : Table K V} {i : Nat} (h : i < t.capacity)
    (hocc : (getEntry t i).status = Status.occupied) :
    iterNextLoop t i = (some (getEntry t i), i + 1) := by
  rw [iterNextLoop]
  simp [h, hocc]

theorem iterNextLoop_skip {t : Table K V} {i : Nat} (h : i < t.capacity)
    (hocc : ¬(getEntry t i).status = Status.occupied) :
    iterNextLoop t i = iterNextLoop t (i + 1) := by
  rw [iterNextLoop]
  simp [h, hocc]

theorem iterDrain_spec (t : Table K V) (hlen : lenInv t) :
    ∀ n i fuel, t.capacity - i = n → t.capacity - i < fuel →
      iterDrain ⟨t, i⟩ fuel
        = (t.entries.drop i).filter (fun e => decide (e.status = Status.occupied)) := by
  intro n
  induction n with
  | zero =>
    intro i fuel hn hf
    have hge : t.capacity ≤ i := by omega
    have hd : t.entries.drop i = [] :=
      List.drop_eq_nil_of_le (by rw [hlen]; exact hge)
    rw [hd]
    cases fuel with
    | zero => omega
    | succ fuel =>
      rw [iterDrain]
      have hnx : hashmap_iter_next (⟨t, i⟩ : Iter K V) = (none, ⟨t, i⟩) := by
        simp [hashmap_iter_next, iterNextLoop_oob (show ¬i < t.capacity by omega)]
      rw [hnx]
      rfl
  | succ n ihn =>
    intro i fuel hn hf
    have hi : i < t.capacity := by omega
    have hil : i < t.entries.length := by rw [hlen]; exact hi
    have hdrop : t.entries.drop i = getEntry t i :: t.entries.drop (i + 1) := by
      rw [List.drop_eq_getElem_cons hil, getEntry_eq_getElem hil]
    by_cases hocc : (getEntry t i).status = Status.occupied
    · cases fuel with
      | zero => omega
      | succ fuel =>
        rw [iterDrain]
        have hnx : hashmap_iter_next (⟨t, i⟩ : Iter K V)
            = (some (getEntry t i), ⟨t, i + 1⟩) := by
          simp [hashmap_iter_next, iterNextLoop_occ hi hocc]
        rw [hnx, hdrop, List.filter_cons]
        simp only [show (decide ((getEntry t i).status = Status.occupied)) = true
          by simp [hocc], if_pos]
        congr 1
        exact ihn (i + 1) fuel (by omega) (by omega)
    · have hnx : hashmap_iter_next (⟨t, i⟩ : Iter K V)
          = hashmap_iter_next (⟨t, i + 1⟩ : Iter K V) := by
        simp [hashmap_iter_next, iterNextLoop_skip hi hocc]
      have hdr : iterDrain (⟨t, i⟩ : Iter K V) fuel
          = iterDrain (⟨t, i + 1⟩ : Iter K V) fuel := by
        cases fuel with
        | zero => rfl
        | succ fuel =>
          rw [iterDrain, hnx, iterDrain]
      rw [hdr, hdrop, List.filter_cons]
      simp only [show (decide ((getEntry t i).status = Status.occupied)) = false
        by simp [hocc], Bool.false_eq_true, if_neg, if_false]
      exact ihn (i + 1) fuel (by omega) (by omega)

theorem filter_occ_length (l : List (Entry K V)) :
    (l.filter (fun e => decide (e.status = Status.occupied))).length
      = (pairsList l).length := by
  induction l with
  | nil => rfl
  | cons e rest ih =>
    by_cases h : e.status = Status.occupied <;>
      simp [List.filter_cons, pairsList_cons, h, entryPair, ih]

end RobinHood

/-! Termination of the placement loop when a free slot exists, and the
capacity bookkeeping of inserts that do not trigger a resize. -/

namespace RobinHood

variable {K V : Type} [Inhabited K] [Inhabited V]

theorem placeLoop_terminates :
    ∀ fuel {t : Table K V} {e : Entry K V} {index dist j : Nat},
      t.entries.length = t.capacity → index < t.capacity → j < fuel →
      slotStatus t ((index + j) % t.capacity) ≠ Status.occupied →
      (placeLoop t e index dist fuel).isSome = true := by
  intro fuel
  induction fuel with
  | zero =>
    intro t e index dist j _ _ hj _
    exact absurd hj (Nat.not_lt_zero _)
  | succ fuel ih =>
    intro t e index dist j hlen hidx hj hfree
    rw [placeLoop]
    dsimp only
    by_cases hcur : (getEntry t index).status = Status.empty ∨
        (getEntry t index).status = Status.tombstone
    · rw [if_pos hcur]
      rfl
    · have hco : (getEntry t index).status = Status.occupied := status_not_free hcur
      have hj0 : j ≠ 0 := by
        intro h0
        subst h0
        rw [Nat.add_zero, Nat.mod_eq_of_lt hidx] at hfree
        exact hfree hco
      have hcap : 0 < t.capacity := Nat.lt_of_le_of_lt (Nat.zero_le _) hidx
      have hslotne : (index + j) % t.capacity ≠ index := by
        intro hcc
        rw [hcc] at hfree
        exact hfree hco
      have harith : ((index + 1) % t.capacity + (j - 1)) % t.capacity
          = (index + j) % t.capacity := by
        rw [Nat.mod_add_mod]
        congr 1
        omega
      rw [if_neg hcur]
      split
      · refine ih (t := setEntry t index e) (by simpa [setEntry] using hlen)
          (Nat.mod_lt _ hcap) (show j - 1 < fuel by omega) ?_
        show slotStatus (setEntry t index e)
          (((index + 1) % t.capacity + (j - 1)) % (setEntry t index e).capacity)
            ≠ Status.occupied
        show slotStatus (setEntry t index e)
          (((index + 1) % t.capacity + (j - 1)) % t.capacity) ≠ Status.occupied
        rw [harith]
        have hst : slotStatus (setEntry t index e) ((index + j) % t.capacity)
            = slotStatus t ((index + j) % t.capacity) := by
          simp [slotStatus, getEntry_set_ne e (fun hh => hslotne hh.symm)]
        rw [hst]
        exact hfree
      · refine ih (t := t) hlen (Nat.mod_lt _ hcap)
          (show j - 1 < fuel by omega) ?_
        rw [harith]
        exact hfree

theorem needsResize_false_of_le {t : Table K V}
    (h : 10 * (t.count + 1) ≤ 9 * t.capacity) : needsResize t = false := by
  simp [needsResize]
  omega

theorem insertG_noresize {grow : Table K V → Nat} {alloc : Nat → Bool}
    {fuel : Nat} {t : Table K V} {k : K} {v : V} {ctr : Nat} {t2 : Table K V}
    {ctr2 : Nat} (hnr : needsResize t = false)
    (h : insertG grow alloc fuel t k v ctr = some ((true, t2), ctr2)) :
    t2.capacity = t.capacity ∧ t2.count = t.count + 1 ∧ ctr2 = ctr := by
  cases fuel with
  | zero => simp [insertG] at h
  | succ fuel =>
    rw [insertG] at h
    dsimp only at h
    rw [if_neg (by simp [hnr])] at h
    dsimp only at h
    split at h
    · cases h
    · rename_i t3 hplace
      simp only [Option.some.injEq, Prod.mk.injEq, true_and] at h
      obtain ⟨ht3, hctr⟩ := h
      have hb := placeLoop_basic hplace
      subst ht3
      exact ⟨hb.1, hb.2.1, hctr.symm⟩

theorem reinsertList_cap {grow : Table K V → Nat} {alloc : Nat → Bool}
    {fuel : Nat} :
    ∀ (src : List (Entry K V)) (acc : Table K V) (ctr : Nat) (nm : Table K V)
      (ctr2 : Nat),
      reinsertList (insertG grow alloc fuel) src acc ctr = some (some nm, ctr2) →
      10 * (acc.count + (pairsList src).length) ≤ 9 * acc.capacity →
      nm.capacity = acc.capacity ∧ nm.count = acc.count + (pairsList src).length := by
  intro src
  induction src with
  | nil =>
    intro acc ctr nm ctr2 h _
    simp only [reinsertList, Option.some.injEq, Prod.mk.injEq] at h
    obtain ⟨hnm, _⟩ := h
    subst hnm
    simp [pairsList]
  | cons e rest ih =>
    intro acc ctr nm ctr2 h hload
    rw [reinsertList] at h
    split at h
    · rename_i hocc
      have hplen : (pairsList (e :: rest)).length = (pairsList rest).length + 1 := by
        rw [pairsList_cons, entryPair_occupied hocc]
        simp
      rw [hplen] at hload
      split at h
      · cases h
      · simp at h
      · rename_i acc2 ctrX heq
        have hstep := insertG_noresize
          (needsResize_false_of_le (by omega)) heq
        have hrest := ih acc2 ctrX nm ctr2 h
          (by rw [hstep.1, hstep.2.1]; omega)
        refine ⟨by rw [hrest.1, hstep.1], ?_⟩
        rw [hrest.2, hstep.2.1, hplen]
        omega
    · rename_i hnocc
      have hplen : pairsList (e :: rest) = pairsList rest := by
        rw [pairsList_cons, entryPair_not_occupied hnocc]
        simp
      rw [hplen] at hload ⊢
      exact ih acc ctr nm ctr2 h hload

theorem resizeAux_capacity {grow : Table K V → Nat} {alloc : Nat → Bool}
    {fuel : Nat} {t : Table K V} {nc ctr : Nat} {t1 : Table K V} {ctr1 : Nat}
    (hcnt : countInv t)
    (h : resizeAux alloc (insertG grow alloc fuel) t nc ctr
      = some ((true, t1), ctr1))
    (hload : 10 * t.count ≤ 9 * nc) :
    t1.capacity = nc ∧ t1.count = t.count := by
  unfold resizeAux at h
  split at h
  · split at h
    · cases h
    · simp at h
    · rename_i nm ctrX heq
      simp only [Option.some.injEq, Prod.mk.injEq] at h
      obtain ⟨⟨_, ht1⟩, _⟩ := h
      have hc := reinsertList_cap t.entries (freshLike t nc) (ctr + 1) nm ctrX heq
        (by
          show 10 * (0 + (pairsList t.entries).length) ≤ 9 * nc
          rw [Nat.zero_add, ← hcnt]
          exact hload)
      subst ht1
      constructor
      · show nm.capacity = nc
        rw [hc.1]
        rfl
      · show nm.count = t.count
        rw [hc.2, ← hcnt,
          show (freshLike t nc : Table K V).count = 0 from rfl, Nat.zero_add]
  · simp at h

theorem insertG_resize_capacity {grow : Table K V → Nat} {alloc : Nat → Bool}
    {fuel : Nat} {t : Table K V} {k : K} {v : V} {ctr : Nat} {t2 : Table K V}
    {ctr2 : Nat} (hcnt : countInv t) (hnr : needsResize t = true)
    (hload : 10 * t.count ≤ 9 * grow t)
    (h : insertG grow alloc (fuel + 1) t k v ctr = some ((true, t2), ctr2)) :
    t2.capacity = grow t ∧ t2.count = t.count + 1 := by
  rw [insertG] at h
  dsimp only at h
  rw [if_pos hnr] at h
  split at h
  · cases h
  · simp at h
  · rename_i t1 ctr1 heq
    have hres := resizeAux_capacity hcnt heq hload
    split at h
    · cases h
    · rename_i t3 hplace
      simp only [Option.some.injEq, Prod.mk.injEq, true_and] at h
      obtain ⟨ht3, _⟩ := h
      have hb := placeLoop_basic hplace
      subst ht3
      exact ⟨by rw [hb.1, hres.1], by rw [hb.2.1, hres.2]⟩

end RobinHood

/-! Sequences of inserts, and uniqueness of a key across occupied slots. -/

namespace RobinHood

variable {K V : Type} [Inhabited K] [Inhabited V]

theorem insertSeq_ok :
    ∀ (rest : List (K × V)) (fuel : Nat) (t tN : Table K V),
      WF t → insertSeq fuel t rest = some tN →
      WF tN ∧
      (↑(pairsList tN.entries) : Multiset (K × V))
        = ↑(pairsList t.entries) + ↑rest ∧
      tN.hash_fn = t.hash_fn ∧ tN.cmp_fn = t.cmp_fn := by
  intro rest
  induction rest with
  | nil =>
    intro fuel t tN hwf h
    simp only [insertSeq, Option.some.injEq] at h
    subst h
    exact ⟨hwf, by simp, rfl, rfl⟩
  | cons kv rest ih =>
    intro fuel t tN hwf h
    obtain ⟨k, v⟩ := kv
    rw [insertSeq] at h
    split at h
    · rename_i t1 ctr1 heq
      have hstep := insertSpec_all growCap_ok fuel t k v 0 t1 ctr1 hwf heq
      have hrest := ih fuel t1 tN hstep.1 h
      refine ⟨hrest.1, ?_, ?_, ?_⟩
      · rw [hrest.2.1, hstep.2.1, ← Multiset.cons_coe, ← Multiset.singleton_add]
        abel
      · rw [hrest.2.2.1, hstep.2.2.2.1]
      · rw [hrest.2.2.2, hstep.2.2.2.2.1]
    · cases h

theorem pair_mem_drop {l : List (Entry K V)} {a b : Nat} (hab : a < b)
    (hb : b < l.length)
    (hob : (l.getD b emptyEntry).status = Status.occupied) :
    ((l.getD b emptyEntry).key, (l.getD b emptyEntry).value)
      ∈ pairsList (l.drop (a + 1)) := by
  have hbl : b - (a + 1) < (l.drop (a + 1)).length := by
    simp [List.length_drop]
    omega
  have hgl : (l.drop (a + 1)).getD (b - (a + 1)) emptyEntry
      = l.getD b emptyEntry := by
    rw [getD_lt hbl, getD_lt hb, List.getElem_drop]
    congr 1
    omega
  have hm := pairsList_mem_of_occupied hbl (by rw [hgl]; exact hob)
  rwa [hgl] at hm

theorem pairs_pairwise_lt {l : List (Entry K V)} {R : (K × V) → (K × V) → Prop}
    (hpw : (pairsList l).Pairwise R) {a b : Nat} (hab : a < b) (hb : b < l.length)
    (hoa : (l.getD a emptyEntry).status = Status.occupied)
    (hob : (l.getD b emptyEntry).status = Status.occupied) :
    R ((l.getD a emptyEntry).key, (l.getD a emptyEntry).value)
      ((l.getD b emptyEntry).key, (l.getD b emptyEntry).value) := by
  have ha : a < l.length := Nat.lt_trans hab hb
  have hdecomp : pairsList l
      = pairsList (l.take a) ++
        (((l.getD a emptyEntry).key, (l.getD a emptyEntry).value)
          :: pairsList (l.drop (a + 1))) := by
    conv_lhs => rw [entries_decomp l a ha]
    rw [pairsList_append, pairsList_cons, entryPair_occupied hoa]
    rfl
  rw [hdecomp] at hpw
  have hpw2 := (List.pairwise_append.mp hpw).2.1
  have hmem := pair_mem_drop hab hb hob
  exact (List.pairwise_cons.mp hpw2).1 _ hmem

theorem pairs_pairwise_unique {l : List (Entry K V)}
    {R : (K × V) → (K × V) → Prop} (hpw : (pairsList l).Pairwise R)
    {p q : Nat} (hp : p < l.length) (hq : q < l.length) (hpq : p ≠ q)
    (hop : (l.getD p emptyEntry).status = Status.occupied)
    (hoq : (l.getD q emptyEntry).status = Status.occupied) :
    R ((l.getD p emptyEntry).key, (l.getD p emptyEntry).value)
        ((l.getD q emptyEntry).key, (l.getD q emptyEntry).value) ∨
      R ((l.getD q emptyEntry).key, (l.getD q emptyEntry).value)
        ((l.getD p emptyEntry).key, (l.getD p emptyEntry).value) := by
  rcases Nat.lt_or_ge p q with hlt | hge
  · exact Or.inl (pairs_pairwise_lt hpw hlt hq hop hoq)
  · have hlt2 : q < p := by omega
    exact Or.inr (pairs_pairwise_lt hpw hlt2 hp hoq hop)

theorem exists_free_slot {t : Table K V} (hlen : lenInv t) (hcnt : countInv t)
    (hlt : t.count < t.capacity) :
    ∃ i, i < t.capacity ∧ slotStatus t i ≠ Status.occupied := by
  by_contra hno
  push_neg at hno
  have hall : ∀ e ∈ t.entries, (fun e => decide (e.status = Status.occupied)) e
      = true := by
    intro e he
    obtain ⟨i, hi, hei⟩ := List.mem_iff_getElem.mp he
    have hocc := hno i (by rw [← hlen]; exact hi)
    rw [slotStatus, getEntry_eq_getElem hi, hei] at hocc
    simpa using hocc
  have hcp : t.entries.countP (fun e => decide (e.status = Status.occupied))
      = t.entries.length := List.countP_eq_length.mpr hall
  have hcc : t.count = t.capacity := by
    rw [hcnt, pairsList_length_countP, hcp, hlen]
  omega

theorem hashmap_get_none {t : Table K V} {k : K} (hcap : 0 < t.capacity)
    (hnomatch : ∀ q, q < t.capacity → slotStatus t q = Status.occupied →
      (getEntry t q).hash = hashKey t k →
      t.cmp_fn (getEntry t q).key k = false)
    {es : Nat} (hes : es < t.capacity) (hemp : slotStatus t es = Status.empty) :
    hashmap_get t k = some none := by
  unfold hashmap_get
  have hidxlt : hashKey t k % t.capacity < t.capacity := Nat.mod_lt _ hcap
  have hslot : (hashKey t k % t.capacity +
      (es + t.capacity - hashKey t k % t.capacity) % t.capacity) % t.capacity
      = es := mod_cycle hidxlt hes
  exact getLoop_no_match hcap hnomatch t.capacity (hashKey t k % t.capacity)
    ((es + t.capacity - hashKey t k % t.capacity) % t.capacity) hidxlt
    (by rw [hslot]; exact hemp) (Nat.mod_lt _ hcap)

end RobinHood

/-! The claims. -/

namespace RobinHood

/-- C9: hash_str_key applied to the empty string returns exactly 2166136261,
the FNV offset basis, since no bytes are mixed in. -/
theorem c9_hash_empty_string : hash_str_key [] = 2166136261 := rfl

/-- C7: with every key hashing to slot 0, inserting key 10 with value 1,
removing it (slot 0 becomes a TOMBSTONE), and then inserting key 20 with
value 2 — which lands in the probe chain of that tombstone — get 10 reports
NOT FOUND and get 20 returns 2; the lookup scan passes tombstones and stops
only at an EMPTY slot, as the get on the removed key over the tombstone
shows. -/
theorem c7_tombstone_probe_chain :
    hashmap_insert allocAll 10 c7tab 10 1 0 = some ((true, c7afterInsertX), 0) ∧
    hashmap_remove c7afterInsertX 10 = some (true, c7afterRemoveX) ∧
    slotStatus c7afterRemoveX 0 = Status.tombstone ∧
    hashmap_get c7afterRemoveX 10 = some none ∧
    hashmap_insert allocAll 10 c7afterRemoveX 20 2 0
      = some ((true, c7afterInsertY), 0) ∧
    hashmap_get c7afterInsertY 10 = some none ∧
    hashmap_get c7afterInsertY 20 = some (some 2) := by
  refine ⟨rfl, rfl, rfl, rfl, rfl, rfl, rfl⟩

/-- C4: whenever resize returns failure — the allocation oracle refusing the
new array, or any reinsertion into it failing — the original table is handed
back fully unmodified: the result table is the input table itself, entries,
capacity and count included. -/
theorem c4_resize_failure_preserves_table
    {K V : Type} [Inhabited K] [Inhabited V]
    (alloc : Nat → Bool) (fuel : Nat) (t : Table K V) (nc ctr : Nat)
    (t2 : Table K V) (ctr2 : Nat)
    (h : hashmap_resize alloc fuel t nc ctr = some ((false, t2), ctr2)) :
    t2 = t :=
  resizeAux_fail h

/-- Witness for C4 at a concrete failing allocation. -/
theorem c4_resize_failure_preserves_table_witness :
    resTable c4tab (hashmap_resize allocNone 5 c4tab 4 0) = c4tab := by
  exact c4_resize_failure_preserves_table allocNone 5 c4tab 4 0
    (resTable c4tab (hashmap_resize allocNone 5 c4tab 4 0)) 1 rfl

/-- C2 counterexample: grow factor 3/2 > 1 on a capacity-1 table — the first
insert triggers the pre-insert resize, whose target ⌊1 * 3/2⌋ = 1 does not
actually grow the table; the insert then succeeds and the resulting load
factor is 1, above the claimed bound 0.9, because the code never re-checks
the load after resizing. -/
theorem c2_load_factor_counterexample :
    1 < c2tab.grow_factor ∧
    resFlag (hashmap_insert allocAll 5 c2tab 7 7 0) = true ∧
    ¬(((resTable c2tab (hashmap_insert allocAll 5 c2tab 7 7 0)).count : ℚ)
        / ((resTable c2tab (hashmap_insert allocAll 5 c2tab 7 7 0)).capacity : ℚ)
      ≤ 9 / 10) := by
  refine ⟨by decide, by decide, ?_⟩
  show ¬(((1 : Nat) : ℚ) / ((1 : Nat) : ℚ) ≤ 9 / 10)
  norm_num

/-- C2 (amended): the load bound does hold for every successful insert that
does not trigger the pre-insert resize: if 10 * (count + 1) ≤ 9 * capacity
held on entry — the scaled form of count + 1 ≤ capacity * 0.9 — then the
resulting table satisfies 10 * count ≤ 9 * capacity, i.e. load ≤ 0.9. The
original claim fails when the resize does trigger, as the counterexample
shows. -/
theorem c2_load_factor_no_resize
    {K V : Type} [Inhabited K] [Inhabited V]
    (grow : Table K V → Nat) (alloc : Nat → Bool) (fuel : Nat)
    (t : Table K V) (k : K) (v : V) (ctr : Nat) (t2 : Table K V) (ctr2 : Nat)
    (hload : 10 * (t.count + 1) ≤ 9 * t.capacity)
    (h : insertG grow alloc fuel t k v ctr = some ((true, t2), ctr2)) :
    10 * t2.count ≤ 9 * t2.capacity := by
  have hnr := needsResize_false_of_le hload
  obtain ⟨hcap, hcnt, _⟩ := insertG_noresize hnr h
  rw [hcap, hcnt]
  exact hload

/-- Witness for the amended C2 on a concrete no-trigger insert. -/
theorem c2_load_factor_no_resize_witness :
    10 * c2wres.count ≤ 9 * c2wres.capacity := by
  exact c2_load_factor_no_resize growCap allocAll 5 c2wtab 1 1 0 c2wres
    (resCtr (hashmap_insert allocAll 5 c2wtab 1 1 0)) (by decide) rfl

/-- C10: whenever count < capacity in a table satisfying the length and
count invariants — so some slot is EMPTY or TOMBSTONE — the unbounded Robin
Hood placement loop of insert terminates: within capacity steps the model
returns a table (rather than exhausting its fuel), with the count increased
by the placed entry. -/
theorem c10_placement_terminates
    {K V : Type} [Inhabited K] [Inhabited V]
    (t : Table K V) (e : Entry K V) (index : Nat) (dist : Nat)
    (hlen : lenInv t) (hcnt : countInv t) (hidx : index < t.capacity)
    (hlt : t.count < t.capacity) :
    (placeLoop t e index dist t.capacity).isSome = true ∧
    (placeLoop t e index dist t.capacity).map (fun s => s.count)
      = some (t.count + 1) := by
  obtain ⟨i, hi, hfree⟩ := exists_free_slot hlen hcnt hlt
  have hcap : 0 < t.capacity := Nat.lt_of_le_of_lt (Nat.zero_le index) hidx
  have hj : (index + ((i + t.capacity - index) % t.capacity)) % t.capacity = i :=
    mod_cycle hidx hi
  have hs : (placeLoop t e index dist t.capacity).isSome = true := by
    refine placeLoop_terminates t.capacity hlen hidx
      (Nat.mod_lt (i + t.capacity - index) hcap) ?_
    rw [hj]
    exact hfree
  obtain ⟨t2, ht2⟩ := Option.isSome_iff_exists.mp hs
  refine ⟨hs, ?_⟩
  rw [ht2]
  show some t2.count = some (t.count + 1)
  rw [(placeLoop_basic ht2).2.1]

/-- Witness for C10 on a concrete table with one free slot. -/
theorem c10_placement_terminates_witness :
    (placeLoop c10wtab ⟨9, 9, Status.occupied, 1⟩ 1 0 c10wtab.capacity).isSome
        = true ∧
    (placeLoop c10wtab ⟨9, 9, Status.occupied, 1⟩ 1 0 c10wtab.capacity).map
        (fun s => s.count) = some (c10wtab.count + 1) := by
  exact c10_placement_terminates c10wtab ⟨9, 9, Status.occupied, 1⟩ 1 0
    (by decide) (by decide) (by decide) (by decide)

end RobinHood

namespace RobinHood

/-- C1: for every sequence of inserts of pairwise-distinct keys (distinct
under the comparison function, which accepts each inserted key as equal to
itself) into a freshly constructed table with positive capacity and grow
factor at least 1, once the whole sequence returns success the count equals
the number of keys inserted and get returns the exact value inserted for
each key. -/
theorem c1_insert_roundtrip
    {K V : Type} [Inhabited K] [Inhabited V]
    (cap : Nat) (gf : ℚ) (hfn : K → Nat) (cfn : K → K → Bool)
    (kvs : List (K × V)) (fuel : Nat) (tN : Table K V)
    (hcap : 0 < cap) (hgf : 1 ≤ gf)
    (hrefl : ∀ p ∈ kvs, cfn p.1 p.1 = true)
    (hdist : kvs.Pairwise (fun x y => cfn x.1 y.1 = false ∧ cfn y.1 x.1 = false))
    (hrun : insertSeq fuel (hashmap_init cap gf hfn cfn) kvs = some tN) :
    tN.count = kvs.length ∧
    ∀ p ∈ kvs, hashmap_get tN p.1 = some (some p.2) := by
  have hwf0 : WF (hashmap_init cap gf hfn cfn : Table K V) :=
    WF_init cap gf hfn cfn hcap hgf
  obtain ⟨hwfN, hpairsN, hhfN, hcfN⟩ := insertSeq_ok kvs fuel _ tN hwf0 hrun
  have hp0 : pairsList (hashmap_init cap gf hfn cfn : Table K V).entries = [] := by
    show pairsList (List.replicate cap emptyEntry) = []
    exact pairsList_replicate cap
  rw [hp0] at hpairsN
  have hpairsN2 : (↑(pairsList tN.entries) : Multiset (K × V)) = ↑kvs := by
    rw [hpairsN]
    simp
  have hperm : (pairsList tN.entries).Perm kvs := Multiset.coe_eq_coe.mp hpairsN2
  have hlenN : tN.entries.length = tN.capacity := hwfN.1
  constructor
  · rw [hwfN.2.2.2.1]
    exact hperm.length_eq
  · intro p hpmem
    have hmem : (p.1, p.2) ∈ pairsList tN.entries := by
      refine hperm.mem_iff.mpr ?_
      simpa using hpmem
    obtain ⟨i, hi, hiocc, hikey0, hival0⟩ := pair_mem_pairsList hmem
    have hikey : (tN.entries.getD i emptyEntry).key = p.1 := hikey0
    have hival : (tN.entries.getD i emptyEntry).value = p.2 := hival0
    have hic : i < tN.capacity := by rw [← hlenN]; exact hi
    have hiocc2 : slotStatus tN i = Status.occupied := hiocc
    have hpwN : (pairsList tN.entries).Pairwise (fun x y =>
        cfn x.1 y.1 = false ∧ cfn y.1 x.1 = false) :=
      (hperm.pairwise_iff (fun hxy => ⟨hxy.2, hxy.1⟩)).mpr hdist
    have hkey2 : tN.cmp_fn (getEntry tN i).key p.1 = true := by
      have hc : cfn (getEntry tN i).key p.1 = true := by
        show cfn (tN.entries.getD i emptyEntry).key p.1 = true
        rw [hikey]
        exact hrefl p hpmem
      rw [hcfN]
      exact hc
    have hhash2 : (getEntry tN i).hash = hashKey tN p.1 := by
      have hh := hwfN.2.2.2.2.1 i hic hiocc2
      rw [hh]
      show hashKey tN (tN.entries.getD i emptyEntry).key = hashKey tN p.1
      rw [hikey]
    have huniq : ∀ q, q < tN.capacity → q ≠ i →
        slotStatus tN q = Status.occupied →
        tN.cmp_fn (getEntry tN q).key p.1 = false := by
      intro q hqc hqi hqocc
      have hql : q < tN.entries.length := by rw [hlenN]; exact hqc
      have hR := pairs_pairwise_unique hpwN hql hi hqi hqocc hiocc
      rw [hcfN]
      show cfn (tN.entries.getD q emptyEntry).key p.1 = false
      rw [← hikey]
      rcases hR with h1 | h1
      · exact h1.1
      · exact h1.2
    have hget := hashmap_get_finds hwfN.2.1 hic hiocc2 hkey2 hhash2 huniq
      hwfN.2.2.2.2.2
    rw [hget]
    exact congrArg (fun x => some (some x)) hival

/-- Witness for C1: three distinct keys into a fresh 4-slot table. -/
theorem c1_insert_roundtrip_witness :
    c1res.count = 3 ∧ hashmap_get c1res 2 = some (some 20) := by
  have h := c1_insert_roundtrip 4 2 (fun n => n) (fun a b => a == b) c1kvs 10
    c1res (by decide) (by decide) (by decide) (by decide) rfl
  exact ⟨h.1, h.2 (2, 20) (by decide)⟩

end RobinHood

namespace RobinHood

/-- C3 counterexample: on the full 2-slot table with grow factor 3, the
untyped hashmap_insert of library.h grows the capacity to 4 = capacity * 2,
not to capacity * grow_factor = 6 as the claim states for both inserts. -/
theorem c3_resize_target_counterexample :
    resFlag (hashmap_insert_untyped allocAll 5 c3tab 2 9 0) = true ∧
    c3resUntyped.capacity = 4 ∧
    growCap c3tab = 6 ∧
    c3resUntyped.capacity ≠ growCap c3tab := by
  refine ⟨by decide, by decide, by decide, by decide⟩

/-- C3 (amended): both inserts perform the capacity check in the scaled form
10 * (count + 1) > 9 * capacity of count + 1 > capacity * 0.9, and abort with
failure and an unchanged table when the triggered resize cannot allocate; on
a successful triggered insert the typed hashmap_NAME_insert of hashmap.h has
grown to ⌊capacity * grow_factor⌋ while the untyped hashmap_insert of
library.h has grown to capacity * 2, ignoring grow_factor; without a trigger
the capacity is untouched. The growth conclusions assume the resize target
itself keeps the load within bound, so the reinsertions do not cascade. -/
theorem c3_insert_capacity_check
    {K V : Type} [Inhabited K] [Inhabited V]
    (alloc : Nat → Bool) (fuel : Nat) (t : Table K V) (k : K) (v : V)
    (ctr : Nat) (hcnt : countInv t) :
    (needsResize t = true ↔ 10 * (t.count + 1) > 9 * t.capacity) ∧
    (∀ grow : Table K V → Nat, needsResize t = true → alloc ctr = false →
      insertG grow alloc (fuel + 1) t k v ctr = some ((false, t), ctr + 1)) ∧
    (∀ t2 ctr2, needsResize t = true → 10 * t.count ≤ 9 * growCap t →
      hashmap_insert alloc (fuel + 1) t k v ctr = some ((true, t2), ctr2) →
      t2.capacity = growCap t) ∧
    (∀ t2 ctr2, needsResize t = true → 10 * t.count ≤ 9 * (t.capacity * 2) →
      hashmap_insert_untyped alloc (fuel + 1) t k v ctr
        = some ((true, t2), ctr2) →
      t2.capacity = t.capacity * 2) ∧
    (∀ (grow : Table K V → Nat) t2 ctr2, needsResize t = false →
      insertG grow alloc (fuel + 1) t k v ctr = some ((true, t2), ctr2) →
      t2.capacity = t.capacity) := by
  refine ⟨by simp [needsResize], ?_, ?_, ?_, ?_⟩
  · intro grow hnr halloc
    have hra : resizeAux alloc (insertG grow alloc fuel) t (grow t) ctr
        = some ((false, t), ctr + 1) := by
      unfold resizeAux
      rw [if_neg (by simp [halloc])]
    rw [insertG]
    dsimp only
    rw [if_pos hnr, hra]
  · intro t2 ctr2 hnr hload h
    exact (insertG_resize_capacity hcnt hnr hload h).1
  · intro t2 ctr2 hnr hload h
    exact (insertG_resize_capacity hcnt hnr hload h).1
  · intro grow t2 ctr2 hnr h
    exact (insertG_noresize hnr h).1

/-- Witness for the amended C3: the four behaviors at concrete tables. -/
theorem c3_insert_capacity_check_witness :
    insertG growCap allocNone 3 c3full 5 5 0 = some ((false, c3full), 1) ∧
    c3resTyped.capacity = growCap c3tab ∧
    c3resUntyped.capacity = c3tab.capacity * 2 ∧
    c3wres.capacity = c3wtab.capacity := by
  have h1 := (c3_insert_capacity_check allocNone 2 c3full 5 5 0 (by decide)).2.1
    growCap (by decide) rfl
  have h2 := (c3_insert_capacity_check allocAll 4 c3tab 2 9 0 (by decide)).2.2.1
    c3resTyped (resCtr (hashmap_insert allocAll 5 c3tab 2 9 0))
    (by decide) (by decide) rfl
  have h3 := (c3_insert_capacity_check allocAll 4 c3tab 2 9 0 (by decide)).2.2.2.1
    c3resUntyped (resCtr (hashmap_insert_untyped allocAll 5 c3tab 2 9 0))
    (by decide) (by decide) rfl
  have h4 := (c3_insert_capacity_check allocAll 4 c3wtab 1 1 0 (by decide)).2.2.2.2
    growCap c3wres (resCtr (hashmap_insert allocAll 5 c3wtab 1 1 0))
    (by decide) rfl
  exact ⟨h1, h2, h3, h4⟩

end RobinHood

namespace RobinHood

/-- C5 counterexample: resizing a well-formed 2-entry table to requested
capacity 1 succeeds, but the reinsertions re-trigger growth and the final
capacity is 4, not the requested 1. -/
theorem c5_resize_capacity_counterexample :
    WF c5tab ∧
    resFlag (hashmap_resize allocAll 10 c5tab 1 0) = true ∧
    (resTable c5tab (hashmap_resize allocAll 10 c5tab 1 0)).capacity = 4 ∧
    (resTable c5tab (hashmap_resize allocAll 10 c5tab 1 0)).capacity ≠ 1 := by
  refine ⟨by decide, by decide, by decide, by decide⟩

/-- C5 (amended): on a successful resize of a well-formed table the multiset
of occupied (key, value) pairs and the count are preserved, the result is
well-formed, and no slot of the new array is a TOMBSTONE — tombstones are
dropped, not reinserted. The capacity equals the requested capacity provided
the request keeps the load within bound (10 * count ≤ 9 * new_capacity);
otherwise the reinsertions can grow past it, as the counterexample shows. -/
theorem c5_resize_preserves_contents
    {K V : Type} [Inhabited K] [Inhabited V]
    (alloc : Nat → Bool) (fuel : Nat) (t : Table K V) (nc ctr : Nat)
    (t1 : Table K V) (ctr1 : Nat) (hwf : WF t) (hnc : 0 < nc)
    (h : hashmap_resize alloc fuel t nc ctr = some ((true, t1), ctr1)) :
    (↑(pairsList t1.entries) : Multiset (K × V)) = ↑(pairsList t.entries) ∧
    t1.count = t.count ∧
    noTomb t1 ∧
    WF t1 ∧
    (10 * t.count ≤ 9 * nc → t1.capacity = nc) := by
  have hgok : GrowOK (growCap : Table K V → Nat) := growCap_ok
  have hspec : InsertSpec growCap alloc fuel := insertSpec_all hgok fuel
  have hres := resizeAux_ok hspec hwf hnc h
  refine ⟨hres.2.1, hres.2.2.1, hres.2.2.2.2.2.2, hres.1, ?_⟩
  intro hload
  exact (resizeAux_capacity hwf.2.2.2.1 h hload).1

/-- Witness for the amended C5: the 2-entry table resized to capacity 7. -/
theorem c5_resize_preserves_contents_witness :
    (↑(pairsList c5wres.entries) : Multiset (Nat × Nat))
      = ↑(pairsList c5wtab.entries) ∧
    c5wres.count = 2 ∧ c5wres.capacity = 7 := by
  have h := c5_resize_preserves_contents allocAll 10 c5wtab 7 0 c5wres
    (resCtr (hashmap_resize allocAll 10 c5wtab 7 0)) (by decide) (by decide) rfl
  exact ⟨h.1, h.2.1, h.2.2.2.2 (by decide)⟩

end RobinHood

namespace RobinHood

/-- C6 counterexample: in a reachable 3-slot table whose two other slots are
already tombstones, removing the present key succeeds and decrements the
count, but afterwards no slot is EMPTY, so the get scan — which passes
tombstones and stops only at an EMPTY slot — never returns: in the model it
exhausts any fuel without a verdict (result none at the canonical fuel,
never the NOT FOUND verdict some none). -/
theorem c6_remove_get_counterexample :
    (hashmap_remove c6tab 1).map (fun r => (r.1, r.2.count, hashmap_get r.2 1))
      = some (true, 0, none) ∧
    slotStatus (remTable c6tab (hashmap_remove c6tab 1)) 0 = Status.tombstone ∧
    slotStatus (remTable c6tab (hashmap_remove c6tab 1)) 1 = Status.tombstone ∧
    slotStatus (remTable c6tab (hashmap_remove c6tab 1)) 2 = Status.tombstone := by
  refine ⟨rfl, rfl, rfl, rfl⟩

/-- C6 (amended): removing a key held in exactly one occupied slot of a
well-formed table succeeds by turning exactly that slot into a TOMBSTONE and
decrementing the count by exactly 1, and a subsequent get of that key
returns NOT FOUND — provided some slot of the table is EMPTY, for without
one the get scan never terminates, as the counterexample shows. -/
theorem c6_remove_then_get
    {K V : Type} [Inhabited K] [Inhabited V]
    (t : Table K V) (k : K) (t2 : Table K V)
    (hwf : WF t)
    (h : hashmap_remove t k = some (true, t2))
    (huniq : ∀ q, q < t.capacity → ∀ r, r < t.capacity →
      (slotStatus t q = Status.occupied ∧ slotStatus t r = Status.occupied ∧
        t.cmp_fn (getEntry t q).key k = true ∧
        t.cmp_fn (getEntry t r).key k = true) → q = r)
    (hemp : ∃ es, es < t.capacity ∧ slotStatus t es = Status.empty) :
    ∃ p, p < t.capacity ∧ slotStatus t p = Status.occupied ∧
      t.cmp_fn (getEntry t p).key k = true ∧
      t2 = tombstoned t p ∧
      slotStatus t2 p = Status.tombstone ∧
      t2.count + 1 = t.count ∧
      hashmap_get t2 k = some none := by
  have hcap : 0 < t.capacity := hwf.2.1
  have hlen : lenInv t := hwf.1
  obtain ⟨p, hp, hpocc, hphash, hpkey, ht2⟩ :=
    removeLoop_succ t.capacity (hashKey t k % t.capacity) hcap
      (Nat.mod_lt _ hcap) h
  obtain ⟨es, hes, hesemp⟩ := hemp
  have hpl : p < t.entries.length := by rw [hlen]; exact hp
  have hmem := pairsList_mem_of_occupied hpl hpocc
  have hpos : 0 < t.count := by
    rw [hwf.2.2.2.1]
    exact List.length_pos_of_mem hmem
  subst ht2
  refine ⟨p, hp, hpocc, hpkey, rfl, ?_, ?_, ?_⟩
  · rw [slotStatus, getEntry_tombstoned_self hpl]
  · show t.count - 1 + 1 = t.count
    omega
  · refine hashmap_get_none hcap ?_ hes ?_
    · intro q hq hqocc hqhash
      by_cases hqp : q = p
      · subst hqp
        rw [slotStatus, getEntry_tombstoned_self hpl] at hqocc
        simp at hqocc
      · have hgq : getEntry (tombstoned t p) q = getEntry t q :=
          getEntry_tombstoned_ne (fun hh => hqp hh.symm)
        rw [slotStatus, hgq] at hqocc
        rw [hgq]
        show t.cmp_fn (getEntry t q).key k = false
        cases hbc : t.cmp_fn (getEntry t q).key k with
        | false => rfl
        | true =>
          have hq2 : q < t.capacity := hq
          exact absurd (huniq q hq2 p hp ⟨hqocc, hpocc, hbc, hpkey⟩) hqp
    · have hne : p ≠ es := by
        intro hh
        rw [hh, hesemp] at hpocc
        cases hpocc
      rw [slotStatus, getEntry_tombstoned_ne hne]
      exact hesemp

/-- Witness for the amended C6 on a concrete removal. -/
theorem c6_remove_then_get_witness :
    c6wres.count + 1 = c6wtab.count ∧ hashmap_get c6wres 1 = some none := by
  obtain ⟨p, hp, hocc, hkey, ht2, htomb, hcnt, hget⟩ :=
    c6_remove_then_get c6wtab 1 c6wres (by decide) rfl (by decide)
      ⟨0, by decide, by decide⟩
  exact ⟨hcnt, hget⟩

end RobinHood

namespace RobinHood

/-- C8: a fresh iterator from iter_begin driven by iter_next until exhaustion
yields exactly the OCCUPIED entries of the slot array in slot order — no
duplicates, no omissions, `count` many of them when the count bookkeeping
holds — regardless of EMPTY and TOMBSTONE slots interleaved, and at or past
the end every further step reports exhaustion. -/
theorem c8_iterator_drains_occupied
    {K V : Type} [Inhabited K] [Inhabited V]
    (t : Table K V) (fuel : Nat) (hlen : lenInv t) (hcnt : countInv t)
    (hfuel : t.capacity < fuel) :
    iterDrain (hashmap_iter_begin t) fuel
      = t.entries.filter (fun e => decide (e.status = Status.occupied)) ∧
    (iterDrain (hashmap_iter_begin t) fuel).length = t.count ∧
    (∀ e ∈ iterDrain (hashmap_iter_begin t) fuel,
      e.status = Status.occupied) ∧
    (∀ i, t.capacity ≤ i → (hashmap_iter_next (⟨t, i⟩ : Iter K V)).1 = none) := by
  rw [hashmap_iter_begin]
  have hdr := iterDrain_spec t hlen (t.capacity - 0) 0 fuel rfl (by omega)
  rw [List.drop_zero] at hdr
  refine ⟨hdr, ?_, ?_, ?_⟩
  · rw [hdr, filter_occ_length, hcnt]
  · intro e he
    rw [hdr] at he
    have h2 := (List.mem_filter.mp he).2
    simpa using h2
  · intro i hi
    show (iterNextLoop t i).1 = none
    rw [iterNextLoop_oob (by omega)]

/-- Witness for C8 on a table interleaving occupied, empty and tombstone
slots. -/
theorem c8_iterator_drains_occupied_witness :
    iterDrain (hashmap_iter_begin c8wtab) 6
      = [⟨1, 11, Status.occupied, 1⟩, ⟨3, 33, Status.occupied, 3⟩] ∧
    (iterDrain (hashmap_iter_begin c8wtab) 6).length = c8wtab.count := by
  have h := c8_iterator_drains_occupied c8wtab 6 (by decide) (by decide)
    (by decide)
  exact ⟨h.1, h.2.1⟩

end RobinHood
